import Mathlib

/-!
# dcm4che OpenJPH native wrapper: encode orchestration

A shallow embedding of `openjph_wrapper.cpp` / `openjph_wrapper.h` (the growable
memory sink, the parameter translator, the pixel feeder and the encode
orchestrator) and of `org_dcm4che3_openjph_OpenJPH.cpp` (the JNI bridge).

Conventions of the embedding

* C `int` fields are `Int`; casts to `ojph::ui32` are `to_ui32` (reduction modulo
  `2^32`), conversions of an unsigned value to `int` are `to_int`, and `size_t`
  arithmetic is reduced modulo `2^64`.
* The OpenJPH codec is an external collaborator: it is a parameter of the model
  (`Codec`), a deterministic state machine whose calls may throw and may write
  blocks of bytes to the sink it was handed in `write_headers`.
* Every nullable result the code branches on is an oracle of the environment:
  `malloc`/`realloc` (in the sink and in `strdup_safe`), `FindClass`,
  `GetPrimitiveArrayCritical`, `NewByteArray`.
* `float` values are the rationals they denote; `Env.f32` is the rounding of an
  exact result to `float`.
* A `while` loop that may spin forever is run with enough fuel to reach its
  periodic regime (`grow_capacity_none_stable`); `none` / `Outcome.diverges` stand for
  a call that never returns.
-/

namespace OpenJPH

/-- One byte of memory. -/
abbrev Byte := Fin 256

/-- Number of values of `ojph::ui32`. -/
def U32_MOD : Nat := 4294967296

/-- Number of values of `size_t` (LP64). -/
def SIZE_MOD : Nat := 18446744073709551616

/-- The cast `(ojph::ui32)i` of a C integer. -/
def to_ui32 (i : Int) : Nat := (i % 4294967296).toNat

/-- Conversion of an integer value to a 32-bit `int` (two's complement wrap). -/
def to_int (i : Int) : Int := (i + 2147483648) % 4294967296 - 2147483648

def OJPH_PROG_LRCP : Int := 0
def OJPH_PROG_RLCP : Int := 1
def OJPH_PROG_RPCL : Int := 2
def OJPH_PROG_PCRL : Int := 3
def OJPH_PROG_CPRL : Int := 4

/-- The struct `ojph_encode_params` of `openjph_wrapper.h`. -/
structure ojph_encode_params where
  width : Int
  height : Int
  components : Int
  bits_per_sample : Int
  is_signed : Int
  reversible : Int
  compression_ratio : ℚ
  progression_order : Int
  decompositions : Int
deriving DecidableEq, Repr

/-- The struct `ojph_encode_result` of `openjph_wrapper.h`; `none` is a null pointer.
`data` holds the bytes stored in the buffer the pointer designates. -/
structure ojph_encode_result where
  data : Option (List Byte)
  size : Nat
  error : Option String
deriving DecidableEq, Repr

/-- What a C++ call can throw: a `std::exception` with its `what()` text, or anything else. -/
inductive Exn where
  | std (what : String)
  | other
deriving DecidableEq, Repr

/-- Outcome of a call that may throw or never return. -/
inductive Outcome (α : Type) where
  | ret (a : α)
  | throws (e : Exn)
  | diverges
deriving DecidableEq, Repr

/-! ## Growable memory sink (`jni_mem_outfile`) -/

/-- State of a `jni_mem_outfile`: `buf_` is `none` for `nullptr`, otherwise the bytes
stored so far in the allocation (what lies beyond is uninitialised). -/
structure jni_mem_outfile where
  buf_ : Option (List Byte)
  size_ : Nat
  capacity_ : Nat
deriving DecidableEq, Repr

/-- The constructor `jni_mem_outfile()`. -/
def jni_mem_outfile.ctor : jni_mem_outfile :=
  { buf_ := none, size_ := 0, capacity_ := 0 }

/-- The method `open()`; `malloc_ok n` tells whether `malloc(n)` returns non-null. -/
def jni_mem_outfile.open_ (malloc_ok : Nat → Bool) (_s : jni_mem_outfile) :
    Outcome jni_mem_outfile :=
  if malloc_ok 65536 then
    .ret { buf_ := some [], size_ := 0, capacity_ := 65536 }
  else
    .throws (.std "Failed to allocate output buffer")

/-- The loop `while (size_ + size > capacity_) capacity_ *= 2;` with `need = size_ + size`.
Each unit of fuel pays for one evaluation of the condition; `none` when the fuel runs out. -/
def grow_capacity : Nat → Nat → Nat → Option Nat
  | 0, _, _ => none
  | fuel + 1, need, cap =>
    if need > cap then grow_capacity fuel need (cap * 2 % SIZE_MOD) else some cap

/-- Fuel for `grow_capacity`: after 64 doublings every 64-bit capacity is 0 and stays 0. -/
def GROW_FUEL : Nat := 65

/-- The call `memcpy(buf_ + off, ptr, size)` on the stored bytes. -/
def memcpy_at (buf : Option (List Byte)) (off : Nat) (block : List Byte) :
    Option (List Byte) :=
  match buf with
  | none => none
  | some bs => some (bs.take off ++ block)

/-- The method `write(ptr, size)`, `block` being the `size` bytes at `ptr`; returns the new
state and the method's return value. `realloc_ok n` tells whether `realloc(buf_, n)` succeeds. -/
def jni_mem_outfile.write (realloc_ok : Nat → Bool) (s : jni_mem_outfile)
    (block : List Byte) : Outcome (jni_mem_outfile × Nat) :=
  let size := block.length
  let need := (s.size_ + size) % SIZE_MOD
  if need > s.capacity_ then
    match grow_capacity GROW_FUEL need s.capacity_ with
    | none => .diverges
    | some cap =>
      if realloc_ok cap then
        .ret ({ buf_ := memcpy_at (some (s.buf_.getD [])) s.size_ block,
                size_ := need, capacity_ := cap }, size)
      else
        .throws (.std "Failed to grow output buffer")
  else
    .ret ({ buf_ := memcpy_at s.buf_ s.size_ block, size_ := need,
            capacity_ := s.capacity_ }, size)

/-- The method `tell()`: the length as `ojph::si64`. -/
def jni_mem_outfile.tell (s : jni_mem_outfile) : Int :=
  ((s.size_ : Int) + 9223372036854775808) % 18446744073709551616 - 9223372036854775808

/-- The method `close()`. -/
def jni_mem_outfile.close (s : jni_mem_outfile) : jni_mem_outfile := s

/-- The method `release(&out_size)`: the returned pointer, `*out_size`, and the new state. -/
def jni_mem_outfile.release (s : jni_mem_outfile) :
    Option (List Byte) × Nat × jni_mem_outfile :=
  (s.buf_, s.size_, { buf_ := none, size_ := 0, capacity_ := 0 })

/-- The destructor: the buffer it passes to `free`, if any. -/
def jni_mem_outfile.dtor (s : jni_mem_outfile) : Option (List Byte) := s.buf_

/-- The helper `strdup_safe`: `strlen(s) + 1` bytes are requested from `malloc`. -/
def strdup_safe (malloc_ok : Nat → Bool) (s : Option String) : Option String :=
  match s with
  | none => none
  | some str => if malloc_ok (str.utf8ByteSize + 1) then some str else none

/-! ## The codec collaborator -/

/-- Calls that `ojph_encode` makes on the codestream before any output exists. -/
inductive ConfigOp where
  | construct
  | access_siz
  | set_image_extent (x y : Nat)
  | set_num_components (n : Nat)
  | set_component (c : Nat) (dx dy : Nat) (bit_depth : Nat) (is_signed : Bool)
  | set_image_offset (x y : Nat)
  | set_tile_size (w h : Nat)
  | set_tile_offset (x y : Nat)
  | access_cod
  | set_num_decomposition (n : Nat)
  | set_reversible (b : Bool)
  | set_progression_order (name : String)
  | set_color_transform (b : Bool)
  | set_precinct_size (num_levels : Int) (sizes : List (Nat × Nat))
  | set_block_dims (w h : Nat)
  | access_qcd
  | set_irrev_quant (delta : ℚ)
deriving DecidableEq, Repr

/-- Entry of the ordered log of what `ojph_encode` does. -/
inductive Ev where
  | config (op : ConfigOp)
  | sink_open
  | write_headers
  | raw_read (index : Int)
  | exchange (line : Option (List Int))
  | flush
  | close
  | sink_release
deriving DecidableEq, Repr

/-- What a codec call does once it owns the sink: the blocks it passes to `write`, in
order, and then either a new codec state with a return value or an exception. -/
structure CallResult (σ α : Type) where
  writes : List (List Byte)
  outcome : Except Exn (σ × α)

/-- The OpenJPH codestream as a state machine over `σ`. `exchange` returns the component
index `next_comp` it wants next. -/
structure Codec (σ : Type) where
  init : σ
  configure : σ → ConfigOp → Except Exn σ
  write_headers : σ → CallResult σ Unit
  exchange : σ → Option (List Int) → CallResult σ Nat
  flush : σ → CallResult σ Unit
  close : σ → CallResult σ Unit

/-- Environment of one `ojph_encode` call. -/
structure Env (σ : Type) where
  codec : Codec σ
  malloc_ok : Nat → Bool
  realloc_ok : Nat → Bool
  f32 : ℚ → ℚ

/-! ## Parameter translator -/

/-- The `switch (params->progression_order)`. -/
def progression_name (progression_order : Int) : String :=
  if progression_order = OJPH_PROG_LRCP then "LRCP"
  else if progression_order = OJPH_PROG_RLCP then "RLCP"
  else if progression_order = OJPH_PROG_RPCL then "RPCL"
  else if progression_order = OJPH_PROG_PCRL then "PCRL"
  else if progression_order = OJPH_PROG_CPRL then "CPRL"
  else "LRCP"

/-- The local `int num_precincts = params->decompositions + 1;`. -/
def num_precincts (p : ojph_encode_params) : Int := to_int (p.decompositions + 1)

/-- Indices `i` of the stores `precincts[i] = ojph::size(256, 256)` into the array
`ojph::size precincts[34]`, in order. -/
def precinct_stores (p : ojph_encode_params) : List Int :=
  (List.range (num_precincts p).toNat).map Int.ofNat

/-- Size of the local array `precincts`. -/
def PRECINCTS_LEN : Int := 34

/-- The block guarded by `params->progression_order == OJPH_PROG_RPCL`. -/
def precinct_ops (p : ojph_encode_params) : List ConfigOp :=
  if p.progression_order = OJPH_PROG_RPCL then
    [.set_precinct_size (num_precincts p) ((precinct_stores p).map fun _ => (256, 256))]
  else []

/-- The block guarded by `!reversible && params->compression_ratio > 0.0f`. -/
def quant_ops (f32 : ℚ → ℚ) (p : ojph_encode_params) : List ConfigOp :=
  if (p.reversible = 0) ∧ p.compression_ratio > 0 then
    let rate := f32 (1 / p.compression_ratio)
    let bpp := f32 (f32 ((to_ui32 p.bits_per_sample * to_ui32 p.components % U32_MOD : Nat) : ℚ) * rate)
    [.access_qcd, .set_irrev_quant bpp]
  else []

/-- The codec calls of `ojph_encode` from the construction of the codestream up to the
quantisation setting, in program order. -/
def config_ops (f32 : ℚ → ℚ) (p : ojph_encode_params) : List ConfigOp :=
  let width := to_ui32 p.width
  let height := to_ui32 p.height
  let comps := to_ui32 p.components
  let bps := to_ui32 p.bits_per_sample
  let is_signed := decide (p.is_signed ≠ 0)
  let reversible := decide (p.reversible ≠ 0)
  [.construct, .access_siz, .set_image_extent width height, .set_num_components comps]
    ++ (List.range comps).map (fun c => ConfigOp.set_component c 1 1 bps is_signed)
    ++ [.set_image_offset 0 0, .set_tile_size width height, .set_tile_offset 0 0,
        .access_cod, .set_num_decomposition (to_ui32 p.decompositions),
        .set_reversible reversible,
        .set_progression_order (progression_name p.progression_order),
        .set_color_transform (decide (comps ≥ 3))]
    ++ precinct_ops p
    ++ [.set_block_dims 64 64]
    ++ quant_ops f32 p

/-- Runs configuration calls in order until one throws; the log records every call made. -/
def run_config {σ : Type} (codec : Codec σ) :
    List ConfigOp → σ → List Ev → Except Exn σ × List Ev
  | [], s, log => (.ok s, log)
  | op :: ops, s, log =>
    match codec.configure s op with
    | .error e => (.error e, log ++ [.config op])
    | .ok s' => run_config codec ops s' (log ++ [.config op])

/-! ## Pixel feeder -/

/-- The local `bytes_per_sample`. -/
def bytes_per_sample (bps : Nat) : Nat := if bps ≤ 8 then 1 else 2

/-- The local `expected_size`, a product in `size_t`. -/
def expected_size (p : ojph_encode_params) : Nat :=
  (to_ui32 p.width * to_ui32 p.height * to_ui32 p.components
    * bytes_per_sample (to_ui32 p.bits_per_sample)) % SIZE_MOD

/-- Offset of `src_row` from `raw_data`: `(size_t)y * width * comps` times the sample size. -/
def row_base (width comps bytes : Nat) (y : Nat) : Nat :=
  if bytes = 1 then (y * width * comps) % SIZE_MOD else (y * width * comps * 2) % SIZE_MOD

/-- The index `x * comps + next_comp` of the 1-byte path, in `ojph::ui32`. -/
def index8 (comps next_comp x : Nat) : Nat := (x * comps + next_comp) % U32_MOD

/-- The local `int offset = (x * comps + next_comp) * 2;` of the 2-byte path. -/
def offset16 (comps next_comp x : Nat) : Int :=
  to_int (((x * comps + next_comp) * 2 % U32_MOD : Nat) : Int)

/-- Indices, relative to `raw_data`, of the bytes read for column `x`, in order. -/
def sample_reads (width comps bytes : Nat) (y next_comp x : Nat) : List Int :=
  if bytes = 1 then
    [(row_base width comps bytes y : Int) + index8 comps next_comp x]
  else
    [(row_base width comps bytes y : Int) + offset16 comps next_comp x,
     (row_base width comps bytes y : Int) + (offset16 comps next_comp x + 1)]

/-- The value stored in `dp[x]`. -/
def sample_value (raw_data : Int → Byte) (width comps bytes : Nat) (is_signed : Bool)
    (y next_comp x : Nat) : Int :=
  if bytes = 1 then
    let val : Int := (raw_data ((row_base width comps bytes y : Int)
      + index8 comps next_comp x)).val
    if is_signed then (if val ≥ 128 then val - 256 else val) else val
  else
    let offset := offset16 comps next_comp x
    let lo : Int := (raw_data ((row_base width comps bytes y : Int) + offset)).val
    let hi : Int := (raw_data ((row_base width comps bytes y : Int) + (offset + 1))).val
    let val : Int := lo + hi * 256
    if is_signed then (if val ≥ 32768 then val - 65536 else val) else val

/-- Every raw index read while one line is filled (the loop over `x`). -/
def line_reads (width comps bytes : Nat) (y next_comp : Nat) : List Int :=
  (List.range width).flatMap (sample_reads width comps bytes y next_comp)

/-- The line `dp[0 .. width)` filled for row `y` and component `next_comp`. -/
def fill_line (raw_data : Int → Byte) (width comps bytes : Nat) (is_signed : Bool)
    (y next_comp : Nat) : List Int :=
  (List.range width).map (sample_value raw_data width comps bytes is_signed y next_comp)

/-- Passes the blocks of a codec call to the sink, in order. -/
def apply_writes (realloc_ok : Nat → Bool) :
    jni_mem_outfile → List (List Byte) → Outcome jni_mem_outfile
  | s, [] => .ret s
  | s, b :: bs =>
    match s.write realloc_ok b with
    | .ret (s', _) => apply_writes realloc_ok s' bs
    | .throws e => .throws e
    | .diverges => .diverges

/-- A codec call that owns the sink: its writes, then its own outcome. -/
def codec_call {σ α : Type} (realloc_ok : Nat → Bool) (sink : jni_mem_outfile)
    (r : CallResult σ α) : Outcome (σ × α × jni_mem_outfile) :=
  match apply_writes realloc_ok sink r.writes with
  | .ret sink' =>
    match r.outcome with
    | .ok (s, a) => .ret (s, a, sink')
    | .error e => .throws e
  | .throws e => .throws e
  | .diverges => .diverges

/-- State carried through the feeding loops. -/
structure FeedState (σ : Type) where
  codec : σ
  sink : jni_mem_outfile
  next_comp : Nat
  log : List Ev

/-- One iteration of the loop over `c`: fill the current line for row `y` and the
component the codec asked for, then exchange it. -/
def feed_line {σ : Type} (env : Env σ) (raw_data : Int → Byte) (width comps bytes : Nat)
    (is_signed : Bool) (y : Nat) (st : FeedState σ) : Outcome (FeedState σ) × List Ev :=
  let line := fill_line raw_data width comps bytes is_signed y st.next_comp
  let log := st.log ++ (line_reads width comps bytes y st.next_comp).map Ev.raw_read
    ++ [.exchange (some line)]
  match codec_call env.realloc_ok st.sink (env.codec.exchange st.codec (some line)) with
  | .ret (s, nc, sink) => (.ret { codec := s, sink := sink, next_comp := nc, log := log }, log)
  | .throws e => (.throws e, log)
  | .diverges => (.diverges, log)

/-- The loop `for (c = 0; c < comps; c++)`, with `n` iterations left. -/
def feed_comps {σ : Type} (env : Env σ) (raw_data : Int → Byte) (width comps bytes : Nat)
    (is_signed : Bool) (y : Nat) : Nat → FeedState σ → Outcome (FeedState σ) × List Ev
  | 0, st => (.ret st, st.log)
  | n + 1, st =>
    match feed_line env raw_data width comps bytes is_signed y st with
    | (.ret st', _) => feed_comps env raw_data width comps bytes is_signed y n st'
    | r => r

/-- The loop `for (y = ...; y < height; y++)`, with `n` rows left starting at row `y`. -/
def feed_rows {σ : Type} (env : Env σ) (raw_data : Int → Byte) (width comps bytes : Nat)
    (is_signed : Bool) : Nat → Nat → FeedState σ → Outcome (FeedState σ) × List Ev
  | 0, _, st => (.ret st, st.log)
  | n + 1, y, st =>
    match feed_comps env raw_data width comps bytes is_signed y comps st with
    | (.ret st', _) => feed_rows env raw_data width comps bytes is_signed n (y + 1) st'
    | r => r

/-! ## Encode orchestrator -/

/-- The statements of the `try` block after the configuration: open the sink, write the
headers, feed the pixels, flush, close, release. -/
def encode_stream {σ : Type} (env : Env σ) (raw_data : Int → Byte)
    (p : ojph_encode_params) (s0 : σ) (log0 : List Ev) :
    Outcome ojph_encode_result × List Ev :=
  let width := to_ui32 p.width
  let height := to_ui32 p.height
  let comps := to_ui32 p.components
  let bytes := bytes_per_sample (to_ui32 p.bits_per_sample)
  let is_signed := decide (p.is_signed ≠ 0)
  let log1 := log0 ++ [.sink_open]
  match jni_mem_outfile.ctor.open_ env.malloc_ok with
  | .throws e => (.throws e, log1)
  | .diverges => (.diverges, log1)
  | .ret sink1 =>
    let log2 := log1 ++ [.write_headers]
    match codec_call env.realloc_ok sink1 (env.codec.write_headers s0) with
    | .throws e => (.throws e, log2)
    | .diverges => (.diverges, log2)
    | .ret (s1, _, sink2) =>
      let log3 := log2 ++ [.exchange none]
      match codec_call env.realloc_ok sink2 (env.codec.exchange s1 none) with
      | .throws e => (.throws e, log3)
      | .diverges => (.diverges, log3)
      | .ret (s2, next_comp, sink3) =>
        match feed_rows env raw_data width comps bytes is_signed height 0
            { codec := s2, sink := sink3, next_comp := next_comp, log := log3 } with
        | (.throws e, log) => (.throws e, log)
        | (.diverges, log) => (.diverges, log)
        | (.ret st, _) =>
          let log4 := st.log ++ [.flush]
          match codec_call env.realloc_ok st.sink (env.codec.flush st.codec) with
          | .throws e => (.throws e, log4)
          | .diverges => (.diverges, log4)
          | .ret (s3, _, sink4) =>
            let log5 := log4 ++ [.close]
            match codec_call env.realloc_ok sink4 (env.codec.close s3) with
            | .throws e => (.throws e, log5)
            | .diverges => (.diverges, log5)
            | .ret (_, _, sink5) =>
              let rel := sink5.release
              (.ret { data := rel.1, size := rel.2.1, error := none }, log5 ++ [.sink_release])

/-- The body of the `try` block of `ojph_encode`. -/
def encode_try {σ : Type} (env : Env σ) (raw_data : Int → Byte) (raw_size : Nat)
    (p : ojph_encode_params) : Outcome ojph_encode_result × List Ev :=
  if raw_size < expected_size p then
    (.ret { data := none, size := 0,
            error := strdup_safe env.malloc_ok (some "Raw data size is smaller than expected") },
     [])
  else
    match run_config env.codec (config_ops env.f32 p) env.codec.init [] with
    | (.error e, log) => (.throws e, log)
    | (.ok s0, log) => encode_stream env raw_data p s0 log

/-- The two `catch` clauses of `ojph_encode`. -/
def encode_catch (malloc_ok : Nat → Bool) (e : Exn) : ojph_encode_result :=
  match e with
  | .std what => { data := none, size := 0, error := strdup_safe malloc_ok (some what) }
  | .other =>
    { data := none, size := 0,
      error := strdup_safe malloc_ok (some "Unknown error during HTJ2K encoding") }

/-- The function `ojph_encode`: the returned struct and the log of what the call did, or
`none` when the call never returns. `raw_data i` is the byte at address `raw_data + i`;
the caller's buffer is the range `[0, raw_size)`. -/
def ojph_encode {σ : Type} (env : Env σ) (raw_data : Int → Byte) (raw_size : Nat)
    (p : ojph_encode_params) : Option (ojph_encode_result × List Ev) :=
  match encode_try env raw_data raw_size p with
  | (.ret r, log) => some (r, log)
  | (.throws e, log) => some (encode_catch env.malloc_ok e, log)
  | (.diverges, _) => none

/-- The function `ojph_free_result`: the struct it leaves behind. -/
def ojph_free_result (_r : ojph_encode_result) : ojph_encode_result :=
  { data := none, size := 0, error := none }

/-! ## Boundary bridge (JNI) -/

/-- The caller runtime: which of its nullable results are non-null, and what lies in
memory around the pinned array. -/
structure Jvm where
  find_class_ok : String → Bool
  get_critical_ok : Bool
  new_byte_array_ok : Int → Bool
  memory_outside : Int → Byte

/-- The release mode `JNI_ABORT` of `jni.h`. -/
def JNI_ABORT : Int := 2

/-- Entry of the ordered log of the calls the bridge makes. -/
inductive JniCall where
  | FindClass (name : String)
  | ThrowNew (cls : String) (msg : String)
  | GetArrayLength
  | GetPrimitiveArrayCritical
  | ojph_encode (raw_size : Nat) (params : ojph_encode_params)
  | ReleasePrimitiveArrayCritical (mode : Int)
  | ojph_free_result
  | NewByteArray (len : Int)
  | SetByteArrayRegion (start : Int) (len : Int) (bytes : List Byte)
deriving DecidableEq, Repr

/-- What a call of the JNI entry point leaves: the returned array (`none` is null), the
exception raised through `ThrowNew` (class and message), and the log of calls. -/
structure BridgeResult where
  ret : Option (List Byte)
  raised : Option (String × String)
  log : List JniCall
deriving DecidableEq, Repr

/-- Name of the exception class. -/
def EXCEPTION_CLASS : String := "org/dcm4che3/openjph/OpenJPHException"

/-- The helper `throwOpenJPHException`. -/
def throwOpenJPHException (jvm : Jvm) (msg : String) : Option (String × String) × List JniCall :=
  if jvm.find_class_ok EXCEPTION_CLASS then
    (some (EXCEPTION_CLASS, msg), [.FindClass EXCEPTION_CLASS, .ThrowNew EXCEPTION_CLASS msg])
  else
    (none, [.FindClass EXCEPTION_CLASS])

/-- The call `snprintf(errorBuf, 512, "HTJ2K encoding failed: %s", error)`. -/
def format_error (error : String) : String :=
  String.mk (("HTJ2K encoding failed: " ++ error).toList.take 511)

/-- Memory seen through the pointer returned by `GetPrimitiveArrayCritical`. -/
def pinned_memory (jvm : Jvm) (arr : List Byte) : Int → Byte :=
  fun i => if h : 0 ≤ i ∧ i.toNat < arr.length then arr.get ⟨i.toNat, h.2⟩
    else jvm.memory_outside i

/-- The local `params` the bridge fills from its scalar arguments. -/
def bridge_params (width height components bitsPerSample : Int) (isSigned reversible : Bool)
    (compressionRatio : ℚ) (progressionOrder decompositions : Int) : ojph_encode_params :=
  { width := width, height := height, components := components,
    bits_per_sample := bitsPerSample,
    is_signed := if isSigned then 1 else 0,
    reversible := if reversible then 1 else 0,
    compression_ratio := compressionRatio,
    progression_order := progressionOrder,
    decompositions := decompositions }

/-- The JNI entry point `Java_org_dcm4che3_openjph_OpenJPH_encode`; `none` when the call
never returns. -/
def Java_org_dcm4che3_openjph_OpenJPH_encode {σ : Type} (env : Env σ) (jvm : Jvm)
    (rawPixelData : Option (List Byte)) (width height components bitsPerSample : Int)
    (isSigned reversible : Bool) (compressionRatio : ℚ)
    (progressionOrder decompositions : Int) : Option BridgeResult :=
  match rawPixelData with
  | none =>
    let t := throwOpenJPHException jvm "rawPixelData must not be null"
    some { ret := none, raised := t.1, log := t.2 }
  | some arr =>
    let rawSize : Nat := arr.length
    let log1 : List JniCall := [.GetArrayLength, .GetPrimitiveArrayCritical]
    if jvm.get_critical_ok = false then
      let t := throwOpenJPHException jvm "Failed to access raw pixel data"
      some { ret := none, raised := t.1, log := log1 ++ t.2 }
    else
      let params := bridge_params width height components bitsPerSample isSigned reversible
        compressionRatio progressionOrder decompositions
      match ojph_encode env (pinned_memory jvm arr) rawSize params with
      | none => none
      | some (result, _) =>
        let log2 := log1 ++ [.ojph_encode rawSize params,
          .ReleasePrimitiveArrayCritical JNI_ABORT]
        match result.error with
        | some error =>
          let t := throwOpenJPHException jvm (format_error error)
          some { ret := none, raised := t.1, log := log2 ++ [.ojph_free_result] ++ t.2 }
        | none =>
          let len := to_int result.size
          let log3 := log2 ++ [.NewByteArray len]
          if jvm.new_byte_array_ok len = false then
            let t := throwOpenJPHException jvm "Failed to allocate result byte array"
            some { ret := none, raised := t.1, log := log3 ++ [.ojph_free_result] ++ t.2 }
          else
            let bytes := (result.data.getD []).take len.toNat
            some { ret := some bytes, raised := none,
                   log := log3 ++ [.SetByteArrayRegion 0 len bytes, .ojph_free_result] }

/-! ## Auxiliary definitions for the statements -/

/-- The message an exception is turned into by the `catch` clauses. -/
def catch_message (e : Exn) : String :=
  match e with
  | .std what => what
  | .other => "Unknown error during HTJ2K encoding"

/-- Whether a logged call is `ReleasePrimitiveArrayCritical`, in any mode. -/
def JniCall.is_release : JniCall → Bool
  | .ReleasePrimitiveArrayCritical _ => true
  | _ => false

/-- Whether a logged call touches the array or runs the encoder. -/
def JniCall.is_array_access : JniCall → Bool
  | .GetArrayLength => true
  | .GetPrimitiveArrayCritical => true
  | .ojph_encode _ _ => true
  | .ReleasePrimitiveArrayCritical _ => true
  | .SetByteArrayRegion _ _ _ => true
  | _ => false

/-- Whether a configuration call is `set_precinct_size`. -/
def ConfigOp.is_precinct : ConfigOp → Bool
  | .set_precinct_size _ _ => true
  | _ => false

/-- Whether a configuration call is `set_color_transform`. -/
def ConfigOp.is_color_transform : ConfigOp → Bool
  | .set_color_transform _ => true
  | _ => false

/-- Whether a configuration call is `set_progression_order`. -/
def ConfigOp.is_progression : ConfigOp → Bool
  | .set_progression_order _ => true
  | _ => false

/-- Whether a configuration call touches the quantisation parameters. -/
def ConfigOp.is_quant : ConfigOp → Bool
  | .access_qcd => true
  | .set_irrev_quant _ => true
  | _ => false

/-- An allocator that never fails. -/
def always_ok : Nat → Bool := fun _ => true

/-- The feeding order in the words of the specification: line number `k` (from 0) is filled
from row `k / comps` and from the component index the codec returned in the preceding
exchange (`st.next_comp`); `n` lines are still to be submitted. -/
def spec_feed {σ : Type} (env : Env σ) (raw_data : Int → Byte) (width comps bytes : Nat)
    (is_signed : Bool) : Nat → Nat → FeedState σ → Outcome (FeedState σ) × List Ev
  | 0, _, st => (.ret st, st.log)
  | n + 1, k, st =>
    match feed_line env raw_data width comps bytes is_signed (k / comps) st with
    | (.ret st', _) => spec_feed env raw_data width comps bytes is_signed n (k + 1) st'
    | r => r

/-- Whether a log entry is a call of `exchange`. -/
def Ev.is_exchange : Ev → Bool
  | .exchange _ => true
  | _ => false

/-- The lines submitted through `exchange`, in order. -/
def exchanged_lines : List Ev → List (List Int)
  | [] => []
  | .exchange (some line) :: log => line :: exchanged_lines log
  | _ :: log => exchanged_lines log

/-- The state `open()` leaves when its allocation succeeds. -/
def opened_sink : jni_mem_outfile := { buf_ := some [], size_ := 0, capacity_ := 65536 }

/-! ## Concrete inputs -/

/-- Failing input of the size check: the exact product is 2^64. -/
def wrapParams : ojph_encode_params :=
  { width := 1073741824, height := 1073741824, components := 8, bits_per_sample := 16,
    is_signed := 0, reversible := 1, compression_ratio := 0, progression_order := 0,
    decompositions := 5 }

/-- A codec whose every configuration call, the constructor included, throws. -/
def ctorThrows : Codec Unit :=
  { init := ()
    configure := fun _ _ => .error (.std "codec failure")
    write_headers := fun s => { writes := [], outcome := .ok (s, ()) }
    exchange := fun s _ => { writes := [], outcome := .ok (s, 0) }
    flush := fun s => { writes := [], outcome := .ok (s, ()) }
    close := fun s => { writes := [], outcome := .ok (s, ()) } }

/-- The codec `ctorThrows` with an allocator that never fails. -/
def ctorThrowsEnv : Env Unit :=
  { codec := ctorThrows, malloc_ok := fun _ => true, realloc_ok := fun _ => true, f32 := id }

/-- A codec that writes two blocks with the headers, one per exchange, and then throws
in `flush`. -/
def flushThrows : Codec Nat :=
  { init := 0
    configure := fun s _ => .ok (s + 1)
    write_headers := fun s => { writes := [[255, 79], [255, 81]], outcome := .ok (s, ()) }
    exchange := fun s _ => { writes := [[7]], outcome := .ok (s + 1, 0) }
    flush := fun _ => { writes := [[9]], outcome := .error (.std "flush failed") }
    close := fun s => { writes := [], outcome := .ok (s, ()) } }

/-- The codec `flushThrows` with an allocator that never fails. -/
def flushThrowsEnv : Env Nat :=
  { codec := flushThrows, malloc_ok := fun _ => true, realloc_ok := fun _ => true, f32 := id }

/-- A one-pixel, one-component, 8-bit unsigned image. -/
def pixelParams : ojph_encode_params :=
  { width := 1, height := 1, components := 1, bits_per_sample := 8, is_signed := 0,
    reversible := 1, compression_ratio := 0, progression_order := 0, decompositions := 5 }

/-- A single row of 2^30 + 1 sixteen-bit samples. -/
def offsetParams : ojph_encode_params :=
  { width := 1073741825, height := 1, components := 1, bits_per_sample := 16, is_signed := 0,
    reversible := 1, compression_ratio := 0, progression_order := 0, decompositions := 5 }

/-- A codec that accepts every call, writes nothing and always asks for component 0. -/
def quietCodec : Codec Unit :=
  { init := ()
    configure := fun s _ => .ok s
    write_headers := fun s => { writes := [], outcome := .ok (s, ()) }
    exchange := fun s _ => { writes := [], outcome := .ok (s, 0) }
    flush := fun s => { writes := [], outcome := .ok (s, ()) }
    close := fun s => { writes := [], outcome := .ok (s, ()) } }

/-- The codec `quietCodec` with an allocator that never fails. -/
def quietEnv : Env Unit :=
  { codec := quietCodec, malloc_ok := fun _ => true, realloc_ok := fun _ => true, f32 := id }

/-- A one-pixel record whose `bits_per_sample` is negative. -/
def negBitsParams : ojph_encode_params :=
  { width := 1, height := 1, components := 1, bits_per_sample := -1, is_signed := 0,
    reversible := 1, compression_ratio := 0, progression_order := 0, decompositions := 5 }

/-- A 2x2 image of three 8-bit signed components. -/
def rgb8Params : ojph_encode_params :=
  { width := 2, height := 2, components := 3, bits_per_sample := 8, is_signed := 1,
    reversible := 1, compression_ratio := 0, progression_order := 2, decompositions := 5 }

/-- A one-pixel, one-component, 16-bit signed image. -/
def pixel16Params : ojph_encode_params :=
  { width := 1, height := 1, components := 1, bits_per_sample := 16, is_signed := 1,
    reversible := 1, compression_ratio := 0, progression_order := 0, decompositions := 5 }

/-- Memory holding the byte 1 at offset 0 and the byte 2 everywhere else. -/
def oneTwoMemory : Int → Byte := fun i => if i = 0 then 1 else 2

/-- Memory holding the byte 200 everywhere. -/
def constMemory : Int → Byte := fun _ => 200

/-- Memory holding 0xFE at offset 0 and 0xFF everywhere else: little-endian -2. -/
def minusTwoMemory : Int → Byte := fun i => if i = 0 then 254 else 255

/-- A codec whose constructor runs out of memory and throws `std::bad_alloc`. -/
def badAllocCodec : Codec Unit :=
  { init := ()
    configure := fun _ _ => .error (.std "std::bad_alloc")
    write_headers := fun s => { writes := [], outcome := .ok (s, ()) }
    exchange := fun s _ => { writes := [], outcome := .ok (s, 0) }
    flush := fun s => { writes := [], outcome := .ok (s, ()) }
    close := fun s => { writes := [], outcome := .ok (s, ()) } }

/-- The codec `badAllocCodec` with an allocator that is out of memory. -/
def oomEnv : Env Unit :=
  { codec := badAllocCodec, malloc_ok := fun _ => false, realloc_ok := fun _ => false,
    f32 := id }

/-- A caller runtime in which every lookup and allocation succeeds. -/
def okJvm : Jvm :=
  { find_class_ok := fun _ => true, get_critical_ok := true, new_byte_array_ok := fun _ => true,
    memory_outside := fun _ => 0 }

/-- A caller runtime that cannot resolve any class. -/
def noClassJvm : Jvm :=
  { find_class_ok := fun _ => false, get_critical_ok := true, new_byte_array_ok := fun _ => true,
    memory_outside := fun _ => 0 }

/-- A codec whose `write_headers` throws something that is not a `std::exception`. -/
def headersThrowOther : Codec Unit :=
  { init := ()
    configure := fun s _ => .ok s
    write_headers := fun _ => { writes := [], outcome := .error .other }
    exchange := fun s _ => { writes := [], outcome := .ok (s, 0) }
    flush := fun s => { writes := [], outcome := .ok (s, ()) }
    close := fun s => { writes := [], outcome := .ok (s, ()) } }

/-- The codec `headersThrowOther` with an allocator that never fails. -/
def headersThrowOtherEnv : Env Unit :=
  { codec := headersThrowOther, malloc_ok := fun _ => true, realloc_ok := fun _ => true,
    f32 := id }

/-- What the bridge leaves when `flushThrows` encodes a one-byte array in `okJvm`. -/
def flushThrowsBridgeResult : BridgeResult :=
  { ret := none
    raised := some ("org/dcm4che3/openjph/OpenJPHException",
      "HTJ2K encoding failed: flush failed")
    log := [.GetArrayLength, .GetPrimitiveArrayCritical,
      .ojph_encode 1 (bridge_params 1 1 1 8 false true 0 0 5),
      .ReleasePrimitiveArrayCritical 2, .ojph_free_result,
      .FindClass "org/dcm4che3/openjph/OpenJPHException",
      .ThrowNew "org/dcm4che3/openjph/OpenJPHException" "HTJ2K encoding failed: flush failed"] }

/-- Scenario D: three components, progression order RPCL, five decompositions. -/
def scenarioD : ojph_encode_params :=
  { width := 64, height := 64, components := 3, bits_per_sample := 8, is_signed := 0,
    reversible := 1, compression_ratio := 0, progression_order := 2, decompositions := 5 }

/-- Scenario B: three 8-bit components, 64x64, lossy with ratio 10. -/
def scenarioB : ojph_encode_params :=
  { width := 64, height := 64, components := 3, bits_per_sample := 8, is_signed := 0,
    reversible := 0, compression_ratio := 10, progression_order := 0, decompositions := 5 }

/-- A lossy record whose product bits_per_sample * components is 2^32. -/
def wideParams : ojph_encode_params :=
  { width := 1, height := 1, components := 268435456, bits_per_sample := 16, is_signed := 0,
    reversible := 0, compression_ratio := 1, progression_order := 0, decompositions := 5 }

/-- A record with an unrecognised progression order. -/
def order7Params : ojph_encode_params :=
  { width := 1, height := 1, components := 1, bits_per_sample := 8, is_signed := 0,
    reversible := 1, compression_ratio := 0, progression_order := 7, decompositions := 5 }

/-- A codec that accepts every call, writes nothing and asks for the components cyclically:
its state counts the exchange calls made so far. -/
def cyclicCodec (comps : Nat) : Codec Nat :=
  { init := 0
    configure := fun s _ => .ok s
    write_headers := fun s => { writes := [], outcome := .ok (s, ()) }
    exchange := fun s _ => { writes := [], outcome := .ok (s + 1, s % comps) }
    flush := fun s => { writes := [], outcome := .ok (s, ()) }
    close := fun s => { writes := [], outcome := .ok (s, ()) } }

/-- The codec `cyclicCodec` with an allocator that never fails. -/
def cyclicEnv (comps : Nat) : Env Nat :=
  { codec := cyclicCodec comps, malloc_ok := fun _ => true, realloc_ok := fun _ => true,
    f32 := id }

/-- A codec that accepts every call, writes nothing and answers its exchange calls with a
given sequence of component indices: call number `k` (the initial call is number 0) returns
`f k`. Its state counts the exchange calls made so far. -/
def sequenceCodec (f : Nat → Nat) : Codec Nat :=
  { init := 0
    configure := fun s _ => .ok s
    write_headers := fun s => { writes := [], outcome := .ok (s, ()) }
    exchange := fun s _ => { writes := [], outcome := .ok (s + 1, f s) }
    flush := fun s => { writes := [], outcome := .ok (s, ()) }
    close := fun s => { writes := [], outcome := .ok (s, ()) } }

/-- The codec `sequenceCodec` with an allocator that never fails. -/
def sequenceEnv (f : Nat → Nat) : Env Nat :=
  { codec := sequenceCodec f, malloc_ok := fun _ => true, realloc_ok := fun _ => true,
    f32 := id }

/-- The sequence of indices 2, 1, 0, 2, 1, 0, ... -/
def reversedOrder : Nat → Nat := fun k => 2 - k % 3

/-- Memory in which the byte at offset i is i modulo 256. -/
def indexMemory : Int → Byte := fun i => ⟨i.toNat % 256, Nat.mod_lt _ (by decide)⟩

/-- A sink state of capacity 1 whose length is just below 2^63. -/
def deepSink : jni_mem_outfile :=
  { buf_ := some [], size_ := 9223372036854775804, capacity_ := 1 }

/-! ## Theorems -/

/-! ### The log grows by appending -/

theorem run_config_log {σ : Type} (codec : Codec σ) (ops : List ConfigOp) :
    ∀ (s : σ) (log : List Ev), ∃ k, k ≤ ops.length ∧
      (run_config codec ops s log).2 = log ++ (ops.take k).map Ev.config ∧
      (ops ≠ [] → 0 < k) ∧
      (∀ s', (run_config codec ops s log).1 = .ok s' → k = ops.length) := by
  induction ops with
  | nil => intro s log; exact ⟨0, by simp [run_config]⟩
  | cons op ops ih =>
    intro s log
    cases hc : codec.configure s op with
    | error e =>
      refine ⟨1, by simp, ?_, by simp, ?_⟩
      · simp [run_config, hc]
      · intro s' h; simp [run_config, hc] at h
    | ok s1 =>
      obtain ⟨k, hk, hlog, -, hok⟩ := ih s1 (log ++ [.config op])
      refine ⟨k + 1, by simp; omega, ?_, by simp, ?_⟩
      · simp [run_config, hc, hlog]
      · intro s' h
        simp only [run_config, hc] at h
        simp [hok s' h]

theorem feed_line_log {σ : Type} (env : Env σ) (raw_data : Int → Byte) (width comps bytes : Nat)
    (is_signed : Bool) (y : Nat) (st : FeedState σ) :
    (feed_line env raw_data width comps bytes is_signed y st).2 =
      st.log ++ (line_reads width comps bytes y st.next_comp).map Ev.raw_read
        ++ [.exchange (some (fill_line raw_data width comps bytes is_signed y st.next_comp))] ∧
    ∀ st', (feed_line env raw_data width comps bytes is_signed y st).1 = .ret st' →
      st'.log = (feed_line env raw_data width comps bytes is_signed y st).2 := by
  simp only [feed_line]
  rcases hc : codec_call env.realloc_ok st.sink (env.codec.exchange st.codec
      (some (fill_line raw_data width comps bytes is_signed y st.next_comp))) with ⟨s, nc, sink⟩ | e | _
  · refine ⟨rfl, ?_⟩
    intro st' h
    simp only [Outcome.ret.injEq] at h
    subst h; rfl
  · exact ⟨rfl, fun st' h => by simp at h⟩
  · exact ⟨rfl, fun st' h => by simp at h⟩

theorem feed_comps_log {σ : Type} (env : Env σ) (raw_data : Int → Byte) (width comps bytes : Nat)
    (is_signed : Bool) (y : Nat) (n : Nat) :
    ∀ st : FeedState σ,
    st.log <+: (feed_comps env raw_data width comps bytes is_signed y n st).2 ∧
    ∀ st', (feed_comps env raw_data width comps bytes is_signed y n st).1 = .ret st' →
      st'.log = (feed_comps env raw_data width comps bytes is_signed y n st).2 := by
  induction n with
  | zero => intro st; simp [feed_comps]
  | succ n ih =>
    intro st
    have hl := feed_line_log env raw_data width comps bytes is_signed y st
    unfold feed_comps
    rcases hf : feed_line env raw_data width comps bytes is_signed y st with ⟨o, log⟩
    rw [hf] at hl
    cases o with
    | ret st1 =>
      have h1 := hl.2 st1 rfl
      simp only at h1 hl ⊢
      have := ih st1
      refine ⟨?_, this.2⟩
      refine List.IsPrefix.trans ?_ this.1
      rw [h1, hl.1, List.append_assoc]
      exact List.prefix_append _ _
    | throws e =>
      simp only at hl ⊢
      refine ⟨?_, fun st' h => by simp at h⟩
      rw [hl.1, List.append_assoc]; exact List.prefix_append _ _
    | diverges =>
      simp only at hl ⊢
      refine ⟨?_, fun st' h => by simp at h⟩
      rw [hl.1, List.append_assoc]; exact List.prefix_append _ _

theorem feed_rows_log {σ : Type} (env : Env σ) (raw_data : Int → Byte) (width comps bytes : Nat)
    (is_signed : Bool) (n : Nat) :
    ∀ (y : Nat) (st : FeedState σ),
    st.log <+: (feed_rows env raw_data width comps bytes is_signed n y st).2 ∧
    ∀ st', (feed_rows env raw_data width comps bytes is_signed n y st).1 = .ret st' →
      st'.log = (feed_rows env raw_data width comps bytes is_signed n y st).2 := by
  induction n with
  | zero => intro y st; simp [feed_rows]
  | succ n ih =>
    intro y st
    have hl := feed_comps_log env raw_data width comps bytes is_signed y comps st
    unfold feed_rows
    rcases hf : feed_comps env raw_data width comps bytes is_signed y comps st with ⟨o, log⟩
    rw [hf] at hl
    cases o with
    | ret st1 =>
      have h1 := hl.2 st1 rfl
      simp only at h1 hl ⊢
      have := ih (y + 1) st1
      refine ⟨?_, this.2⟩
      refine List.IsPrefix.trans ?_ this.1
      rw [h1]; exact hl.1
    | throws e =>
      simp only at hl ⊢
      exact ⟨hl.1, fun st' h => by simp at h⟩
    | diverges =>
      simp only at hl ⊢
      exact ⟨hl.1, fun st' h => by simp at h⟩

theorem encode_stream_log {σ : Type} (env : Env σ) (raw_data : Int → Byte)
    (p : ojph_encode_params) (s0 : σ) (log0 : List Ev) :
    log0 ++ [.sink_open] <+: (encode_stream env raw_data p s0 log0).2 := by
  unfold encode_stream
  simp only
  split
  · exact List.prefix_refl _
  · exact List.prefix_refl _
  · split
    · exact List.prefix_append _ _
    · exact List.prefix_append _ _
    · split
      · rw [List.append_assoc]; exact List.prefix_append _ _
      · rw [List.append_assoc]; exact List.prefix_append _ _
      · rename_i s2 next_comp sink3 _
        have hf := feed_rows_log env raw_data (to_ui32 p.width) (to_ui32 p.components)
          (bytes_per_sample (to_ui32 p.bits_per_sample)) (decide (p.is_signed ≠ 0))
          (to_ui32 p.height) 0
          { codec := s2, sink := sink3, next_comp := next_comp,
            log := log0 ++ [.sink_open] ++ [.write_headers] ++ [.exchange none] }
        have hpre : log0 ++ [Ev.sink_open] <+:
            log0 ++ [.sink_open] ++ [.write_headers] ++ [.exchange none] := by
          rw [List.append_assoc (log0 ++ [Ev.sink_open])]; exact List.prefix_append _ _
        split
        · rename_i e log h
          rw [h] at hf
          exact hpre.trans hf.1
        · rename_i log h
          rw [h] at hf
          exact hpre.trans hf.1
        · rename_i st x h
          rw [h] at hf
          have hst : st.log = x := hf.2 st rfl
          have hp : log0 ++ [Ev.sink_open] <+: st.log := by rw [hst]; exact hpre.trans hf.1
          split
          · exact hp.trans (List.prefix_append _ _)
          · exact hp.trans (List.prefix_append _ _)
          · split
            · rw [List.append_assoc]; exact hp.trans (List.prefix_append _ _)
            · rw [List.append_assoc]; exact hp.trans (List.prefix_append _ _)
            · rw [List.append_assoc, List.append_assoc]; exact hp.trans (List.prefix_append _ _)

theorem encode_stream_ret {σ : Type} (env : Env σ) (raw_data : Int → Byte)
    (p : ojph_encode_params) (s0 : σ) (log0 : List Ev) (r : ojph_encode_result)
    (h : (encode_stream env raw_data p s0 log0).1 = .ret r) : r.error = none := by
  unfold encode_stream at h
  simp only at h
  split at h
  · simp at h
  · simp at h
  · split at h
    · simp at h
    · simp at h
    · split at h
      · simp at h
      · simp at h
      · split at h
        · simp at h
        · simp at h
        · split at h
          · simp at h
          · simp at h
          · split at h
            · simp at h
            · simp at h
            · simp only [Outcome.ret.injEq] at h
              rw [← h]

theorem config_ops_cons (f32 : ℚ → ℚ) (p : ojph_encode_params) :
    ∃ rest, config_ops f32 p = .construct :: rest := by
  simp [config_ops]

theorem encode_try_log_head {σ : Type} (env : Env σ) (raw_data : Int → Byte) (raw_size : Nat)
    (p : ojph_encode_params) (h : ¬ raw_size < expected_size p) :
    ∃ log, (encode_try env raw_data raw_size p).2 = .config .construct :: log := by
  obtain ⟨rest, hrest⟩ := config_ops_cons env.f32 p
  obtain ⟨k, -, hlog, hpos, -⟩ := run_config_log env.codec (config_ops env.f32 p) env.codec.init []
  have hk : 0 < k := hpos (by simp [hrest])
  obtain ⟨j, rfl⟩ : ∃ j, k = j + 1 := ⟨k - 1, by omega⟩
  rw [hrest] at hlog
  simp only [List.take_succ_cons, List.map_cons, List.nil_append] at hlog
  unfold encode_try
  rw [if_neg h, hrest]
  rcases hr : run_config env.codec (ConfigOp.construct :: rest) env.codec.init [] with ⟨o, log⟩
  rw [hr] at hlog
  simp only at hlog
  cases o with
  | error e => exact ⟨_, hlog⟩
  | ok s0 =>
    simp only
    obtain ⟨t, ht⟩ := encode_stream_log env raw_data p s0 log
    rw [← ht, hlog]
    exact ⟨_, rfl⟩

theorem ojph_encode_log_head {σ : Type} (env : Env σ) (raw_data : Int → Byte) (raw_size : Nat)
    (p : ojph_encode_params) (h : ¬ raw_size < expected_size p) :
    ojph_encode env raw_data raw_size p = none ∨
      ∃ r log, ojph_encode env raw_data raw_size p = some (r, .config .construct :: log) := by
  obtain ⟨log, hlog⟩ := encode_try_log_head env raw_data raw_size p h
  unfold ojph_encode
  rcases ht : encode_try env raw_data raw_size p with ⟨o, l⟩
  rw [ht] at hlog
  simp only at hlog
  subst hlog
  cases o with
  | ret r => exact Or.inr ⟨_, _, rfl⟩
  | throws e => exact Or.inr ⟨_, _, rfl⟩
  | diverges => exact Or.inl rfl


/-! ### C1 -/

/-- C1 (failing input): at width = height = 2^30, components = 8, bits_per_sample = 16 the exact
product is 2^64, the size_t product is 0, and a call with an empty buffer passes the size
check: it never returns the size failure with an empty log, a codec session is created. -/
theorem C1_size_check_wraps :
    wrapParams.width * wrapParams.height * wrapParams.components * 2 = 18446744073709551616 ∧
    expected_size wrapParams = 0 ∧
    (∀ (σ : Type) (env : Env σ) (raw_data : Int → Byte),
      ojph_encode env raw_data 0 wrapParams = none ∨
      ∃ r log, ojph_encode env raw_data 0 wrapParams = some (r, .config .construct :: log)) ∧
    ojph_encode ctorThrowsEnv (fun _ => 0) 0 wrapParams =
      some ({ data := none, size := 0, error := some "codec failure" }, [.config .construct]) := by
  refine ⟨by decide, by decide, ?_, by rfl⟩
  intro σ env raw_data
  exact ojph_encode_log_head env raw_data 0 wrapParams (by decide)

/-! ### C2 -/

theorem quiet_run_config (ops : List ConfigOp) :
    ∀ log, run_config quietCodec ops () log = (.ok (), log ++ ops.map Ev.config) := by
  induction ops with
  | nil => intro log; simp [run_config]
  | cons op ops ih =>
    intro log
    have hc : quietCodec.configure () op = .ok () := rfl
    simp [run_config, hc, ih]

theorem offset_line_reads : (-2147483648 : Int) ∈ line_reads 1073741825 1 2 0 0 := by
  unfold line_reads
  rw [List.mem_flatMap]
  exact ⟨1073741824, by simp, by decide⟩

/-- C2 (failing input): one row of 2^30 + 1 sixteen-bit samples with a buffer of exactly the
expected 2^31 + 2 bytes passes the size check; at column 2^30 the local `int offset` is
-2^31, and the feeder reads raw_data at index -2^31, before the start of the buffer. -/
theorem C2_read_before_buffer :
    0 < offsetParams.width ∧ 0 < offsetParams.height ∧ 0 < offsetParams.components ∧
    1 ≤ offsetParams.bits_per_sample ∧ offsetParams.bits_per_sample ≤ 16 ∧
    expected_size offsetParams = 2147483650 ∧
    offset16 1 0 1073741824 = -2147483648 ∧
    ∀ raw_data : Int → Byte, ∃ r log,
      ojph_encode quietEnv raw_data 2147483650 offsetParams = some (r, log) ∧
      Ev.raw_read (-2147483648) ∈ log := by
  refine ⟨by decide, by decide, by decide, by decide, by decide, by decide, by decide, ?_⟩
  intro raw_data
  have h1 : to_ui32 offsetParams.width = 1073741825 := by decide
  have h2 : to_ui32 offsetParams.height = 1 := by decide
  have h3 : to_ui32 offsetParams.components = 1 := by decide
  have h4 : bytes_per_sample (to_ui32 offsetParams.bits_per_sample) = 2 := by decide
  have h5 : ¬ (2147483650 < expected_size offsetParams) := by decide
  have hq : quietEnv.codec = quietCodec := rfl
  have hi : quietCodec.init = () := rfl
  have hw : quietCodec.write_headers () = { writes := [], outcome := .ok ((), ()) } := rfl
  have hx : ∀ l, quietCodec.exchange () l = { writes := [], outcome := .ok ((), 0) } :=
    fun _ => rfl
  have hf : quietCodec.flush () = { writes := [], outcome := .ok ((), ()) } := rfl
  have hcl : quietCodec.close () = { writes := [], outcome := .ok ((), ()) } := rfl
  have hmal : quietEnv.malloc_ok = fun _ => true := rfl
  unfold ojph_encode encode_try
  rw [if_neg h5, hq, hi, quiet_run_config]
  unfold encode_stream
  simp only [h1, h2, h3, h4, hq, hw, hx, hf, hcl, hmal, jni_mem_outfile.open_, if_true,
    codec_call, apply_writes, feed_rows, feed_comps, feed_line]
  refine ⟨_, _, rfl, ?_⟩
  exact List.mem_append_left _ (List.mem_append_left _ (List.mem_append_left _
    (List.mem_append_left _ (List.mem_append_right _
      (List.mem_map_of_mem _ offset_line_reads)))))

/-! ### C3 -/

theorem encode_try_ret {σ : Type} (env : Env σ) (raw_data : Int → Byte) (raw_size : Nat)
    (p : ojph_encode_params) (r : ojph_encode_result)
    (h : (encode_try env raw_data raw_size p).1 = .ret r) :
    (r.data = none ∧ r.size = 0) ∨ r.error = none := by
  unfold encode_try at h
  split at h
  · simp only [Outcome.ret.injEq] at h
    subst h
    exact Or.inl ⟨rfl, rfl⟩
  · split at h
    · simp at h
    · exact Or.inr (encode_stream_ret env raw_data p _ _ r h)

theorem encode_catch_data (malloc_ok : Nat → Bool) (e : Exn) :
    (encode_catch malloc_ok e).data = none ∧ (encode_catch malloc_ok e).size = 0 := by
  cases e <;> exact ⟨rfl, rfl⟩

/-- C3: whatever the input and the behaviour of codec, sink and allocator, a result returned
by `ojph_encode` never has both `data` and `error` non-null, and when `error` is non-null
`data` is null and `size` is 0. -/
theorem C3_result_never_both {σ : Type} (env : Env σ) (raw_data : Int → Byte) (raw_size : Nat)
    (p : ojph_encode_params) (r : ojph_encode_result)
    (h : (ojph_encode env raw_data raw_size p).map Prod.fst = some r) :
    ¬ (r.data ≠ none ∧ r.error ≠ none) ∧ (r.error ≠ none → r.data = none ∧ r.size = 0) := by
  have key : (r.data = none ∧ r.size = 0) ∨ r.error = none := by
    unfold ojph_encode at h
    rcases ht : encode_try env raw_data raw_size p with ⟨o, log⟩
    rw [ht] at h
    cases o with
    | ret r' =>
      simp only [Option.map_some', Option.some.injEq] at h
      subst h
      exact encode_try_ret env raw_data raw_size p _ (by rw [ht])
    | throws e =>
      simp only [Option.map_some', Option.some.injEq] at h
      subst h
      exact Or.inl (encode_catch_data env.malloc_ok e)
    | diverges => simp at h
  rcases key with ⟨hd, hs⟩ | he
  · exact ⟨fun hb => hb.1 hd, fun _ => ⟨hd, hs⟩⟩
  · exact ⟨fun hb => hb.2 he, fun hne => absurd he hne⟩

/-- C3 at a concrete input: the codec has written header and line bytes to the sink when
`flush` throws; the result carries the message and no bytes. -/
theorem C3_result_never_both_witness :
    (ojph_encode flushThrowsEnv (fun _ => 0) 1 pixelParams).map Prod.fst =
        some { data := none, size := 0, error := some "flush failed" } ∧
    (¬ ((none : Option (List Byte)) ≠ none ∧ some "flush failed" ≠ none) ∧
      (some "flush failed" ≠ none → (none : Option (List Byte)) = none ∧ (0 : Nat) = 0)) :=
  ⟨by rfl, C3_result_never_both flushThrowsEnv (fun _ => 0) 1 pixelParams
    { data := none, size := 0, error := some "flush failed" } (by rfl)⟩

/-! ### C4 -/

/-- C4 (failing input): the record is valid and the buffer passes the size check; memory is
exhausted, so the codestream constructor throws `std::bad_alloc` and `malloc` inside
`strdup_safe` returns null. `ojph_encode` returns neither bytes nor a message, and the JNI
entry point hands the caller an empty array without raising anything. -/
theorem C4_error_lost_on_failed_copy :
    ¬ (1 < expected_size pixelParams) ∧
    badAllocCodec.configure () .construct = .error (.std "std::bad_alloc") ∧
    ojph_encode oomEnv (fun _ => 0) 1 pixelParams =
      some ({ data := none, size := 0, error := none }, [.config .construct]) ∧
    (Java_org_dcm4che3_openjph_OpenJPH_encode oomEnv okJvm (some [0]) 1 1 1 8 false true 0 0 5).map
        (fun res => (res.ret, res.raised)) = some (some [], none) := by
  refine ⟨by decide, rfl, by rfl, by rfl⟩

/-! ### C5 -/

/-- C5 (counterexample): `write_headers` throws something that is not a `std::exception`;
the error string is "Unknown error during HTJ2K encoding", with a capital U, not the
message the claim gives. -/
theorem C5_generic_message_counterexample :
    headersThrowOther.write_headers () = { writes := [], outcome := .error .other } ∧
    (ojph_encode headersThrowOtherEnv (fun _ => 0) 1 pixelParams).map (fun o => o.1.error) =
      some (some "Unknown error during HTJ2K encoding") ∧
    ¬ ((ojph_encode headersThrowOtherEnv (fun _ => 0) 1 pixelParams).map (fun o => o.1.error) =
      some (some "unknown error during HTJ2K encoding")) := by
  refine ⟨rfl, by rfl, by decide⟩

/-- C5 (amended): when the `try` block of `ojph_encode` is left by an exception and the copy
made by `strdup_safe` can be allocated, the result carries exactly the `what()` text of a
`std::exception` and the fixed text "Unknown error during HTJ2K encoding" for anything
else, with no bytes; the error string is not null, and not empty when `what()` is not. -/
theorem C5_failure_message {σ : Type} (env : Env σ) (raw_data : Int → Byte) (raw_size : Nat)
    (p : ojph_encode_params) (e : Exn) (log : List Ev)
    (hthrow : encode_try env raw_data raw_size p = (.throws e, log))
    (halloc : env.malloc_ok ((catch_message e).utf8ByteSize + 1) = true) :
    ojph_encode env raw_data raw_size p =
      some ({ data := none, size := 0, error := some (catch_message e) }, log) ∧
    (∀ m, e = .std m → catch_message e = m) ∧
    (e = .other → catch_message e = "Unknown error during HTJ2K encoding") ∧
    ((∀ m, e = .std m → m ≠ "") → catch_message e ≠ "") := by
  refine ⟨?_, ?_, ?_, ?_⟩
  · unfold ojph_encode
    rw [hthrow]
    cases e with
    | std what =>
      simp only [catch_message] at halloc
      simp [encode_catch, strdup_safe, halloc, catch_message]
    | other =>
      simp only [catch_message] at halloc
      simp [encode_catch, strdup_safe, halloc, catch_message]
  · intro m hm; subst hm; rfl
  · intro h; subst h; rfl
  · intro h
    cases e with
    | std what => exact h what rfl
    | other => decide

/-- C5 at a concrete input: `flush` throws `std::exception("flush failed")` after bytes were
written; the result carries that text. -/
theorem C5_failure_message_witness :
    (ojph_encode flushThrowsEnv (fun _ => 0) 1 pixelParams).map Prod.fst =
      some { data := none, size := 0, error := some "flush failed" } :=
  congrArg (Option.map Prod.fst)
    (C5_failure_message flushThrowsEnv (fun _ => 0) 1 pixelParams (.std "flush failed")
      (encode_try flushThrowsEnv (fun _ => 0) 1 pixelParams).2 (by rfl) (by rfl)).1

/-! ### C6 -/

/-- C6 (counterexample): with a null array in a runtime where `FindClass` returns null, the
guard in `throwOpenJPHException` skips `ThrowNew`: the bridge raises no OpenJPHException. -/
theorem C6_class_lookup_counterexample :
    Java_org_dcm4che3_openjph_OpenJPH_encode quietEnv noClassJvm none 1 1 1 8 false true 0 0 5 =
      some { ret := none, raised := none,
             log := [.FindClass "org/dcm4che3/openjph/OpenJPHException"] } ∧
    ¬ ((Java_org_dcm4che3_openjph_OpenJPH_encode quietEnv noClassJvm none 1 1 1 8 false true
        0 0 5).map BridgeResult.raised =
      some (some ("org/dcm4che3/openjph/OpenJPHException", "rawPixelData must not be null"))) := by
  refine ⟨by rfl, by decide⟩

/-- C6 (amended): with a null array and any other arguments the bridge returns null after
calling only `FindClass` and, when the class was found, `ThrowNew` with the message
"rawPixelData must not be null"; it raises the exception exactly when the class was found,
and no array access and no call of `ojph_encode` is in the log. -/
theorem C6_null_array_rejected {σ : Type} (env : Env σ) (jvm : Jvm)
    (width height components bitsPerSample : Int) (isSigned reversible : Bool)
    (compressionRatio : ℚ) (progressionOrder decompositions : Int) :
    ∃ res, Java_org_dcm4che3_openjph_OpenJPH_encode env jvm none width height components
        bitsPerSample isSigned reversible compressionRatio progressionOrder decompositions
        = some res ∧
      res.ret = none ∧
      res.raised = (if jvm.find_class_ok "org/dcm4che3/openjph/OpenJPHException" then
        some ("org/dcm4che3/openjph/OpenJPHException", "rawPixelData must not be null")
        else none) ∧
      res.log = JniCall.FindClass "org/dcm4che3/openjph/OpenJPHException" ::
        (if jvm.find_class_ok "org/dcm4che3/openjph/OpenJPHException" then
          [JniCall.ThrowNew "org/dcm4che3/openjph/OpenJPHException"
            "rawPixelData must not be null"]
         else []) ∧
      ∀ call ∈ res.log, call.is_array_access = false := by
  refine ⟨_, rfl, rfl, ?_, ?_, ?_⟩
  · simp only [throwOpenJPHException, EXCEPTION_CLASS]
    split <;> rfl
  · simp only [throwOpenJPHException, EXCEPTION_CLASS]
    split <;> rfl
  · simp only [throwOpenJPHException, EXCEPTION_CLASS]
    split <;> simp [JniCall.is_array_access]


/-! ### C7 -/

theorem throw_log_no_release (jvm : Jvm) (msg : String) :
    (throwOpenJPHException jvm msg).2.filter JniCall.is_release = [] := by
  unfold throwOpenJPHException
  split <;> rfl

/-- C7: when `GetPrimitiveArrayCritical` returned a non-null pointer and the call returns,
the log of the bridge starts with `GetArrayLength`, the acquire, the run of `ojph_encode`
and `ReleasePrimitiveArrayCritical` in mode `JNI_ABORT`, with nothing else between acquire
and release, and that release is the only one in the whole log, whether the encoder
reported an error or not. -/
theorem C7_release_once {σ : Type} (env : Env σ) (jvm : Jvm) (arr : List Byte)
    (width height components bitsPerSample : Int) (isSigned reversible : Bool)
    (compressionRatio : ℚ) (progressionOrder decompositions : Int) (res : BridgeResult)
    (hcrit : jvm.get_critical_ok = true)
    (hres : Java_org_dcm4che3_openjph_OpenJPH_encode env jvm (some arr) width height components
        bitsPerSample isSigned reversible compressionRatio progressionOrder decompositions
        = some res) :
    (∃ post, res.log = [JniCall.GetArrayLength, JniCall.GetPrimitiveArrayCritical,
        JniCall.ojph_encode arr.length (bridge_params width height components bitsPerSample
          isSigned reversible compressionRatio progressionOrder decompositions),
        JniCall.ReleasePrimitiveArrayCritical JNI_ABORT] ++ post ∧
      post.filter JniCall.is_release = []) ∧
    res.log.filter JniCall.is_release = [JniCall.ReleasePrimitiveArrayCritical JNI_ABORT] := by
  unfold Java_org_dcm4che3_openjph_OpenJPH_encode at hres
  simp only [hcrit, Bool.true_eq_false, if_false] at hres
  split at hres
  · simp at hres
  · rename_i result elog henc
    split at hres
    · rename_i error herr
      simp only [Option.some.injEq] at hres
      subst hres
      have hnr := throw_log_no_release jvm (format_error error)
      refine ⟨⟨[JniCall.ojph_free_result] ++ (throwOpenJPHException jvm (format_error error)).2,
        by simp [bridge_params], ?_⟩, ?_⟩
      · simp [List.filter_cons, hnr, JniCall.is_release]
      · simp [List.filter_cons, List.filter_append, hnr, JniCall.is_release]
    · split at hres
      · simp only [Option.some.injEq] at hres
        subst hres
        have hnr := throw_log_no_release jvm "Failed to allocate result byte array"
        refine ⟨⟨[JniCall.NewByteArray (to_int result.size), JniCall.ojph_free_result] ++
          (throwOpenJPHException jvm "Failed to allocate result byte array").2,
          by simp [bridge_params], ?_⟩, ?_⟩
        · simp [List.filter_cons, hnr, JniCall.is_release]
        · simp [List.filter_cons, List.filter_append, hnr, JniCall.is_release]
      · simp only [Option.some.injEq] at hres
        subst hres
        refine ⟨⟨[JniCall.NewByteArray (to_int result.size),
          JniCall.SetByteArrayRegion 0 (to_int result.size)
            ((result.data.getD []).take (to_int result.size).toNat),
          JniCall.ojph_free_result], by simp [bridge_params], ?_⟩, ?_⟩
        · simp [List.filter_cons, JniCall.is_release]
        · simp [List.filter_cons, JniCall.is_release]

/-- C7 at a concrete input: the encoder fails in `flush`; the array is released once, in
mode `JNI_ABORT`, before `FindClass` and `ThrowNew`. -/
theorem C7_release_once_witness :
    Java_org_dcm4che3_openjph_OpenJPH_encode flushThrowsEnv okJvm (some [0]) 1 1 1 8 false true
      0 0 5 = some flushThrowsBridgeResult ∧
    flushThrowsBridgeResult.log.filter JniCall.is_release =
      [JniCall.ReleasePrimitiveArrayCritical JNI_ABORT] :=
  ⟨by rfl, (C7_release_once flushThrowsEnv okJvm [0] 1 1 1 8 false true 0 0 5
    flushThrowsBridgeResult (by rfl) (by rfl)).2⟩


/-! ### C8 -/

theorem fill_line_get (raw_data : Int → Byte) (width comps bytes : Nat) (is_signed : Bool)
    (y next_comp x : Nat) (hx : x < width) :
    (fill_line raw_data width comps bytes is_signed y next_comp)[x]? =
      some (sample_value raw_data width comps bytes is_signed y next_comp x) := by
  simp [fill_line, List.getElem?_map, List.getElem?_range hx]

theorem sample_index_lt (W H C y x n : Nat) (hy : y < H) (hx : x < W) (hn : n < C) :
    x * C + n < W * C ∧ y * W * C + x * C + n < W * H * C := by
  have h1 : x * C + n < W * C := by
    calc x * C + n < x * C + C := by omega
      _ = (x + 1) * C := by ring
      _ ≤ W * C := Nat.mul_le_mul_right C hx
  refine ⟨h1, ?_⟩
  calc y * W * C + x * C + n = y * (W * C) + (x * C + n) := by ring
    _ < y * (W * C) + W * C := by omega
    _ = (y + 1) * (W * C) := by ring
    _ ≤ H * (W * C) := Nat.mul_le_mul_right _ hy
    _ = W * H * C := by ring

theorem to_ui32_of_nat (n : Nat) (h : n < 4294967296) : to_ui32 (n : Int) = n := by
  unfold to_ui32
  omega

/-- Under the geometry bound the casts to `ojph::ui32` are the identity and the image has
at least one sample. -/
theorem geometry_nat (p : ojph_encode_params) (y x c : Nat) (B : Int)
    (hB : B ≤ 4294967296)
    (hsz : p.width * p.height * p.components < B)
    (hy : (y : Int) < p.height) (hx : (x : Int) < p.width) (hc : (c : Int) < p.components) :
    ∃ W H C : Nat, p.width = W ∧ p.height = H ∧ p.components = C ∧
      to_ui32 p.width = W ∧ to_ui32 p.components = C ∧ to_ui32 p.height = H ∧
      y < H ∧ x < W ∧ c < C ∧ ((W * H * C : Nat) : Int) < B := by
  obtain ⟨W, hW⟩ := Int.eq_ofNat_of_zero_le (show 0 ≤ p.width by omega)
  obtain ⟨H, hH⟩ := Int.eq_ofNat_of_zero_le (show 0 ≤ p.height by omega)
  obtain ⟨C, hC⟩ := Int.eq_ofNat_of_zero_le (show 0 ≤ p.components by omega)
  rw [hW, hH, hC] at hsz
  rw [hW] at hx; rw [hH] at hy; rw [hC] at hc
  have hy' : y < H := by exact_mod_cast hy
  have hx' : x < W := by exact_mod_cast hx
  have hc' : c < C := by exact_mod_cast hc
  have hprod : ((W * H * C : Nat) : Int) < B := by push_cast; exact hsz
  have hlt : W * H * C < 4294967296 := by
    have : ((W * H * C : Nat) : Int) < 4294967296 := lt_of_lt_of_le hprod hB
    exact_mod_cast this
  have hHpos : 1 ≤ H := by omega
  have hCpos : 1 ≤ C := by omega
  have hWpos : 1 ≤ W := by omega
  have hWle : W ≤ W * H * C := by
    calc W = W * 1 * 1 := by ring
      _ ≤ W * H * C := Nat.mul_le_mul (Nat.mul_le_mul_left W hHpos) hCpos
  have hHle : H ≤ W * H * C := by
    calc H = 1 * H * 1 := by ring
      _ ≤ W * H * C := Nat.mul_le_mul (Nat.mul_le_mul_right H hWpos) hCpos
  have hCle : C ≤ W * H * C := by
    calc C = 1 * 1 * C := by ring
      _ ≤ W * H * C := Nat.mul_le_mul_right C (Nat.mul_le_mul hWpos hHpos)
  refine ⟨W, H, C, hW, hH, hC, ?_, ?_, ?_, hy', hx', hc', hprod⟩
  · rw [hW]; exact to_ui32_of_nat W (by omega)
  · rw [hC]; exact to_ui32_of_nat C (by omega)
  · rw [hH]; exact to_ui32_of_nat H (by omega)

theorem bytes_per_sample_low (b : Int) (h0 : 0 ≤ b) (h8 : b ≤ 8) :
    bytes_per_sample (to_ui32 b) = 1 := by
  unfold bytes_per_sample to_ui32
  rw [if_pos (by omega)]

theorem bytes_per_sample_high (b : Int) (h9 : 9 ≤ b) (h16 : b ≤ 16) :
    bytes_per_sample (to_ui32 b) = 2 := by
  unfold bytes_per_sample to_ui32
  rw [if_neg (by omega)]

/-- C8 (amended): with 0 <= bits_per_sample <= 8 and width*height*components < 2^31, the value
at position x of the line filled for row y and component c comes from the single byte at
index y*width*components + x*components + c: the byte itself when is_signed is 0, its
two's-complement reading otherwise. -/
theorem C8_one_byte_sample (raw_data : Int → Byte) (p : ojph_encode_params) (y x c : Nat)
    (hb0 : 0 ≤ p.bits_per_sample) (hb8 : p.bits_per_sample ≤ 8)
    (hsz : p.width * p.height * p.components < 2147483648)
    (hy : (y : Int) < p.height) (hx : (x : Int) < p.width) (hc : (c : Int) < p.components) :
    sample_reads (to_ui32 p.width) (to_ui32 p.components)
        (bytes_per_sample (to_ui32 p.bits_per_sample)) y c x =
      [y * p.width * p.components + x * p.components + c] ∧
    (fill_line raw_data (to_ui32 p.width) (to_ui32 p.components)
        (bytes_per_sample (to_ui32 p.bits_per_sample)) (decide (p.is_signed ≠ 0)) y c)[x]? =
      some (if p.is_signed = 0 then
          ((raw_data (y * p.width * p.components + x * p.components + c)).val : Int)
        else if (raw_data (y * p.width * p.components + x * p.components + c)).val < 128 then
          ((raw_data (y * p.width * p.components + x * p.components + c)).val : Int)
        else ((raw_data (y * p.width * p.components + x * p.components + c)).val : Int) - 256) := by
  obtain ⟨W, H, C, hW, hH, hC, hW', hC', -, hy', hx', hc', hprod⟩ :=
    geometry_nat p y x c 2147483648 (by norm_num) hsz hy hx hc
  have hprod' : W * H * C < 2147483648 := by exact_mod_cast hprod
  obtain ⟨hi1, hi2⟩ := sample_index_lt W H C y x c hy' hx' hc'
  have hyw : y * W * C < 2147483648 := by omega
  have hHpos : 1 ≤ H := by omega
  have hwc : W * C < 2147483648 := by
    have : W * C ≤ W * H * C := by
      calc W * C = W * 1 * C := by ring
        _ ≤ W * H * C := Nat.mul_le_mul_right C (Nat.mul_le_mul_left W hHpos)
    omega
  have hbase : row_base W C 1 y = y * W * C := by
    unfold row_base SIZE_MOD
    rw [if_pos rfl]
    exact Nat.mod_eq_of_lt (by omega)
  have hidx : index8 C c x = x * C + c := by
    unfold index8 U32_MOD
    exact Nat.mod_eq_of_lt (by omega)
  have haddr : ((row_base W C 1 y : Nat) : Int) + ((index8 C c x : Nat) : Int) =
      y * p.width * p.components + x * p.components + c := by
    rw [hbase, hidx, hW, hC]; push_cast; ring
  rw [hW', hC', bytes_per_sample_low _ hb0 hb8]
  refine ⟨?_, ?_⟩
  · simp only [sample_reads, if_true, haddr]
  · rw [fill_line_get _ _ _ _ _ _ _ _ hx']
    simp only [sample_value, if_true, haddr]
    by_cases hs : p.is_signed = 0
    · simp [hs]
    · simp only [hs, ne_eq, not_false_eq_true, decide_True, if_true, if_false]
      by_cases h128 : (raw_data (y * p.width * p.components + x * p.components + c)).val < 128
      · rw [if_neg (by omega), if_pos h128]
      · rw [if_pos (by omega), if_neg h128]

/-- C8 (counterexample): bits_per_sample = -1 satisfies bitsPerSample <= 8, yet the cast to
ui32 gives 4294967295 > 8, the 2-byte path runs and the value written, 513, is built from
two bytes instead of being the single byte 1 at index 0. -/
theorem C8_negative_bits_counterexample :
    negBitsParams.bits_per_sample ≤ 8 ∧
    negBitsParams.width * negBitsParams.height * negBitsParams.components < 2147483648 ∧
    ((0 : Nat) : Int) < negBitsParams.height ∧ ((0 : Nat) : Int) < negBitsParams.width ∧
    ((0 : Nat) : Int) < negBitsParams.components ∧
    negBitsParams.is_signed = 0 ∧
    ((oneTwoMemory 0).val : Int) = 1 ∧
    (fill_line oneTwoMemory (to_ui32 negBitsParams.width) (to_ui32 negBitsParams.components)
        (bytes_per_sample (to_ui32 negBitsParams.bits_per_sample))
        (decide (negBitsParams.is_signed ≠ 0)) 0 0)[0]? = some 513 ∧
    ¬ ((fill_line oneTwoMemory (to_ui32 negBitsParams.width) (to_ui32 negBitsParams.components)
        (bytes_per_sample (to_ui32 negBitsParams.bits_per_sample))
        (decide (negBitsParams.is_signed ≠ 0)) 0 0)[0]? = some ((oneTwoMemory 0).val : Int)) := by
  decide

/-- C8 at a concrete input: row 1, column 1, component 2 of a 2x2 three-component signed
image reads index 11; the byte 200 there is written as -56. -/
theorem C8_one_byte_sample_witness :
    sample_reads (to_ui32 rgb8Params.width) (to_ui32 rgb8Params.components)
        (bytes_per_sample (to_ui32 rgb8Params.bits_per_sample)) 1 2 1 = [11] ∧
    (fill_line constMemory (to_ui32 rgb8Params.width) (to_ui32 rgb8Params.components)
        (bytes_per_sample (to_ui32 rgb8Params.bits_per_sample))
        (decide (rgb8Params.is_signed ≠ 0)) 1 2)[1]? = some (-56) :=
  C8_one_byte_sample constMemory rgb8Params 1 1 2 (by decide) (by decide) (by decide)
    (by decide) (by decide) (by decide)

/-! ### Where the size check and the feeder are exact -/

/-- The size check where the product does not wrap: a buffer shorter than the exact
width * height * components * bytes_per_sample < 2^64 is rejected with the size message, no
bytes and an empty log, provided the copy of the message can be allocated. -/
theorem size_check_rejects {σ : Type} (env : Env σ) (raw_data : Int → Byte) (raw_size : Nat)
    (p : ojph_encode_params)
    (hw : 0 ≤ p.width) (hw31 : p.width < 2147483648)
    (hh : 0 ≤ p.height) (hh31 : p.height < 2147483648)
    (hc : 0 ≤ p.components) (hc31 : p.components < 2147483648)
    (hexact : p.width * p.height * p.components *
      (bytes_per_sample (to_ui32 p.bits_per_sample) : Int) < 18446744073709551616)
    (hshort : (raw_size : Int) < p.width * p.height * p.components *
      (bytes_per_sample (to_ui32 p.bits_per_sample) : Int))
    (halloc : env.malloc_ok ("Raw data size is smaller than expected".utf8ByteSize + 1) = true) :
    ojph_encode env raw_data raw_size p =
      some ({ data := none, size := 0, error := some "Raw data size is smaller than expected" },
        []) := by
  obtain ⟨W, hW⟩ := Int.eq_ofNat_of_zero_le hw
  obtain ⟨H, hH⟩ := Int.eq_ofNat_of_zero_le hh
  obtain ⟨C, hC⟩ := Int.eq_ofNat_of_zero_le hc
  have hWu : to_ui32 p.width = W := by rw [hW]; exact to_ui32_of_nat W (by omega)
  have hHu : to_ui32 p.height = H := by rw [hH]; exact to_ui32_of_nat H (by omega)
  have hCu : to_ui32 p.components = C := by rw [hC]; exact to_ui32_of_nat C (by omega)
  rw [hW, hH, hC] at hexact hshort
  have hexact' : W * H * C * bytes_per_sample (to_ui32 p.bits_per_sample)
      < 18446744073709551616 := by exact_mod_cast hexact
  have hshort' : raw_size < W * H * C * bytes_per_sample (to_ui32 p.bits_per_sample) := by
    exact_mod_cast hshort
  have hexp : expected_size p = W * H * C * bytes_per_sample (to_ui32 p.bits_per_sample) := by
    unfold expected_size SIZE_MOD
    rw [hWu, hHu, hCu]
    exact Nat.mod_eq_of_lt hexact'
  unfold ojph_encode encode_try
  rw [if_pos (by rw [hexp]; exact hshort')]
  simp only [strdup_safe, halloc, if_true]

/-- The feeder stays inside the buffer where no index computation wraps: for a record with
positive dimensions, 1 <= bits_per_sample <= 16 and 2 * width * height * components < 2^31, a
buffer that passes the size check, a row y < height and a component index c < components,
every index read for the line lies in [0, raw_size). -/
theorem line_reads_in_bounds (p : ojph_encode_params) (raw_size y c : Nat) (i : Int)
    (hw : 0 < p.width) (hb1 : 1 ≤ p.bits_per_sample) (hb16 : p.bits_per_sample ≤ 16)
    (hsz : 2 * p.width * p.height * p.components < 2147483648)
    (hpass : ¬ raw_size < expected_size p)
    (hy : (y : Int) < p.height) (hc : (c : Int) < p.components)
    (hi : i ∈ line_reads (to_ui32 p.width) (to_ui32 p.components)
      (bytes_per_sample (to_ui32 p.bits_per_sample)) y c) :
    0 ≤ i ∧ i < raw_size := by
  have hsz' : p.width * p.height * p.components < 1073741824 := by
    have : 2 * p.width * p.height * p.components = 2 * (p.width * p.height * p.components) := by
      ring
    omega
  obtain ⟨W, H, C, hW, hH, hC, hW', hC', hH', hy', -, hc', hprod⟩ :=
    geometry_nat p y 0 c 1073741824 (by norm_num) hsz' hy (by simpa using hw) hc
  have hprod' : W * H * C < 1073741824 := by exact_mod_cast hprod
  rw [hW', hC'] at hi
  unfold line_reads at hi
  rw [List.mem_flatMap] at hi
  obtain ⟨x, hx, hi⟩ := hi
  rw [List.mem_range] at hx
  obtain ⟨hi1, hi2⟩ := sample_index_lt W H C y x c hy' hx hc'
  by_cases hb8 : p.bits_per_sample ≤ 8
  · have hbytes := bytes_per_sample_low p.bits_per_sample (by omega) hb8
    have hexp : expected_size p = W * H * C := by
      unfold expected_size SIZE_MOD
      rw [hW', hH', hC', hbytes, Nat.mul_one]
      exact Nat.mod_eq_of_lt (by omega)
    rw [hbytes] at hi
    have hbase : row_base W C 1 y = y * W * C := by
      unfold row_base SIZE_MOD
      rw [if_pos rfl]
      exact Nat.mod_eq_of_lt (by omega)
    have hidx : index8 C c x = x * C + c := by
      unfold index8 U32_MOD
      exact Nat.mod_eq_of_lt (by omega)
    simp only [sample_reads, if_true, hbase, hidx, List.mem_singleton] at hi
    rw [hexp] at hpass
    subst hi
    constructor
    · exact Int.add_nonneg (Int.ofNat_nonneg _) (Int.ofNat_nonneg _)
    · have : y * W * C + (x * C + c) < raw_size := by omega
      exact_mod_cast this
  · have hbytes := bytes_per_sample_high p.bits_per_sample (by omega) hb16
    have hexp : expected_size p = W * H * C * 2 := by
      unfold expected_size SIZE_MOD
      rw [hW', hH', hC', hbytes]
      exact Nat.mod_eq_of_lt (by omega)
    rw [hbytes] at hi
    have hbase : row_base W C 2 y = y * W * C * 2 := by
      unfold row_base SIZE_MOD
      rw [if_neg (by decide)]
      exact Nat.mod_eq_of_lt (by omega)
    have hoff : offset16 C c x = (((x * C + c) * 2 : Nat) : Int) := by
      unfold offset16 U32_MOD to_int
      rw [Nat.mod_eq_of_lt (by omega)]
      omega
    simp only [sample_reads, if_neg (show ¬ (2 = 1) by decide), hbase, hoff, List.mem_cons,
      List.mem_singleton, List.not_mem_nil, or_false] at hi
    rw [hexp] at hpass
    rcases hi with hi | hi
    · subst hi
      constructor
      · exact Int.add_nonneg (Int.ofNat_nonneg _) (Int.ofNat_nonneg _)
      · have : y * W * C * 2 + (x * C + c) * 2 < raw_size := by omega
        exact_mod_cast this
    · subst hi
      constructor
      · exact Int.add_nonneg (Int.ofNat_nonneg _)
          (Int.add_nonneg (Int.ofNat_nonneg _) (by decide))
      · have : y * W * C * 2 + ((x * C + c) * 2 + 1) < raw_size := by omega
        exact_mod_cast this

/-! ### C9 -/

/-- C9: with 9 <= bits_per_sample <= 16 and 2*width*height*components < 2^31, when the two
bytes at offset 2*(y*width*components + x*components + c) are the low and then the high byte
of the 16-bit pattern of v, the value at position x of the line filled for row y and
component c is v, for v in 0..65535 when is_signed is 0 and for v in -32768..32767 otherwise. -/
theorem C9_two_byte_sample (raw_data : Int → Byte) (p : ojph_encode_params) (y x c : Nat)
    (v : Int)
    (hb9 : 9 ≤ p.bits_per_sample) (hb16 : p.bits_per_sample ≤ 16)
    (hsz : 2 * p.width * p.height * p.components < 2147483648)
    (hy : (y : Int) < p.height) (hx : (x : Int) < p.width) (hc : (c : Int) < p.components)
    (hlo : ((raw_data (2 * (y * p.width * p.components + x * p.components + c))).val : Int)
      = v % 65536 % 256)
    (hhi : ((raw_data (2 * (y * p.width * p.components + x * p.components + c) + 1)).val : Int)
      = v % 65536 / 256) :
    sample_reads (to_ui32 p.width) (to_ui32 p.components)
        (bytes_per_sample (to_ui32 p.bits_per_sample)) y c x =
      [2 * (y * p.width * p.components + x * p.components + c),
       2 * (y * p.width * p.components + x * p.components + c) + 1] ∧
    (p.is_signed = 0 → 0 ≤ v → v ≤ 65535 →
      (fill_line raw_data (to_ui32 p.width) (to_ui32 p.components)
        (bytes_per_sample (to_ui32 p.bits_per_sample)) (decide (p.is_signed ≠ 0)) y c)[x]?
        = some v) ∧
    (p.is_signed ≠ 0 → -32768 ≤ v → v ≤ 32767 →
      (fill_line raw_data (to_ui32 p.width) (to_ui32 p.components)
        (bytes_per_sample (to_ui32 p.bits_per_sample)) (decide (p.is_signed ≠ 0)) y c)[x]?
        = some v) := by
  have hsz' : p.width * p.height * p.components < 1073741824 := by
    have : 2 * p.width * p.height * p.components = 2 * (p.width * p.height * p.components) := by
      ring
    omega
  obtain ⟨W, H, C, hW, hH, hC, hW', hC', -, hy', hx', hc', hprod⟩ :=
    geometry_nat p y x c 1073741824 (by norm_num) hsz' hy hx hc
  have hprod' : W * H * C < 1073741824 := by exact_mod_cast hprod
  obtain ⟨hi1, hi2⟩ := sample_index_lt W H C y x c hy' hx' hc'
  have hbase : row_base W C 2 y = y * W * C * 2 := by
    unfold row_base SIZE_MOD
    rw [if_neg (by decide)]
    exact Nat.mod_eq_of_lt (by omega)
  have hoff : offset16 C c x = (((x * C + c) * 2 : Nat) : Int) := by
    unfold offset16 U32_MOD to_int
    rw [Nat.mod_eq_of_lt (by omega)]
    omega
  have haddr : ((row_base W C 2 y : Nat) : Int) + offset16 C c x =
      2 * (y * p.width * p.components + x * p.components + c) := by
    rw [hbase, hoff, hW, hC]; push_cast; ring
  have haddr1 : ((row_base W C 2 y : Nat) : Int) + (offset16 C c x + 1) =
      2 * (y * p.width * p.components + x * p.components + c) + 1 := by
    rw [← haddr]; ring
  rw [hW', hC', bytes_per_sample_high _ hb9 hb16]
  have hval : sample_value raw_data W C 2 (decide (p.is_signed ≠ 0)) y c x =
      if p.is_signed ≠ 0 then
        (if v % 65536 % 256 + v % 65536 / 256 * 256 ≥ 32768 then
          v % 65536 % 256 + v % 65536 / 256 * 256 - 65536
         else v % 65536 % 256 + v % 65536 / 256 * 256)
      else v % 65536 % 256 + v % 65536 / 256 * 256 := by
    simp only [sample_value, if_neg (show ¬ (2 = 1) by decide), haddr, haddr1, hlo, hhi]
    by_cases hs : p.is_signed = 0 <;> simp [hs]
  refine ⟨?_, ?_, ?_⟩
  · simp only [sample_reads, if_neg (show ¬ (2 = 1) by decide), haddr, haddr1]
  · intro hs h0 h1
    rw [fill_line_get _ _ _ _ _ _ _ _ hx', hval, if_neg (by simp [hs])]
    simp only [Option.some.injEq]
    omega
  · intro hs h0 h1
    rw [fill_line_get _ _ _ _ _ _ _ _ hx', hval, if_pos hs]
    simp only [Option.some.injEq]
    split <;> omega

/-- C9 at a concrete input: the bytes 0xFE, 0xFF of a signed 16-bit pixel are written as -2. -/
theorem C9_two_byte_sample_witness :
    (fill_line minusTwoMemory (to_ui32 pixel16Params.width) (to_ui32 pixel16Params.components)
        (bytes_per_sample (to_ui32 pixel16Params.bits_per_sample))
        (decide (pixel16Params.is_signed ≠ 0)) 0 0)[0]? = some (-2) :=
  (C9_two_byte_sample minusTwoMemory pixel16Params 0 0 0 (-2) (by decide) (by decide)
    (by decide) (by decide) (by decide) (by decide) (by decide) (by decide)).2.2
    (by decide) (by decide) (by decide)

/-! ### C10 -/

theorem run_config_ok_log {σ : Type} (codec : Codec σ) (ops : List ConfigOp) (s s' : σ)
    (log log' : List Ev) (h : run_config codec ops s log = (.ok s', log')) :
    log' = log ++ ops.map Ev.config := by
  obtain ⟨k, -, hlog, -, hok⟩ := run_config_log codec ops s log
  rw [h] at hlog hok
  have hk := hok s' rfl
  simp only at hlog
  rw [hlog, hk, List.take_length]

theorem precinct_stores_eq (p : ojph_encode_params) (h0 : 0 ≤ p.decompositions)
    (h33 : p.decompositions ≤ 33) :
    num_precincts p = p.decompositions + 1 ∧
    (precinct_stores p).length = (p.decompositions + 1).toNat ∧
    ∀ i ∈ precinct_stores p, 0 ≤ i ∧ i < PRECINCTS_LEN := by
  have hn : num_precincts p = p.decompositions + 1 := by
    unfold num_precincts to_int; omega
  refine ⟨hn, by simp [precinct_stores, hn], ?_⟩
  intro i hi
  simp only [precinct_stores, hn, List.mem_map, List.mem_range] at hi
  obtain ⟨k, hk, rfl⟩ := hi
  unfold PRECINCTS_LEN
  constructor
  · exact Int.ofNat_nonneg k
  · have : (k : Int) < 34 := by omega
    exact this

theorem quant_ops_no_precinct (f32 : ℚ → ℚ) (p : ojph_encode_params) :
    (quant_ops f32 p).filter ConfigOp.is_precinct = [] := by
  unfold quant_ops
  split <;> rfl

theorem config_ops_precinct_filter (f32 : ℚ → ℚ) (p : ojph_encode_params) :
    (config_ops f32 p).filter ConfigOp.is_precinct = precinct_ops p := by
  have hcomp : ∀ n b s, ((List.range n).map
      (fun c => ConfigOp.set_component c 1 1 b s)).filter ConfigOp.is_precinct = [] := by
    intro n b s
    rw [List.filter_eq_nil_iff]
    intro a ha
    simp only [List.mem_map] at ha
    obtain ⟨c, -, rfl⟩ := ha
    simp [ConfigOp.is_precinct]
  have hprec : (precinct_ops p).filter ConfigOp.is_precinct = precinct_ops p := by
    unfold precinct_ops
    split <;> rfl
  simp only [config_ops, List.filter_append, hcomp, hprec, quant_ops_no_precinct]
  simp [List.filter_cons, ConfigOp.is_precinct]

/-- C10: the configuration calls derived from a record contain a `set_precinct_size` call
exactly when progression_order is RPCL (2). For RPCL with 0 <= decompositions <= 33 it is
the single such call, it passes decompositions + 1 levels with as many entries, each
256x256, and every store into the 34-element array `precincts` is in bounds. When no
configuration call throws, the calls logged by the run are these calls. -/
theorem C10_precincts_iff_rpcl {σ : Type} (env : Env σ) (p : ojph_encode_params) :
    (p.progression_order = OJPH_PROG_RPCL → 0 ≤ p.decompositions → p.decompositions ≤ 33 →
      (config_ops env.f32 p).filter ConfigOp.is_precinct =
        [.set_precinct_size (p.decompositions + 1)
          (List.replicate (p.decompositions + 1).toNat (256, 256))] ∧
      (∀ i ∈ precinct_stores p, 0 ≤ i ∧ i < PRECINCTS_LEN)) ∧
    (p.progression_order ≠ OJPH_PROG_RPCL →
      (config_ops env.f32 p).filter ConfigOp.is_precinct = []) ∧
    ((config_ops env.f32 p).filter ConfigOp.is_precinct ≠ [] ↔
      p.progression_order = OJPH_PROG_RPCL) ∧
    (∀ s log, run_config env.codec (config_ops env.f32 p) env.codec.init [] = (.ok s, log) →
      log = (config_ops env.f32 p).map Ev.config) := by
  rw [config_ops_precinct_filter]
  refine ⟨?_, ?_, ?_, ?_⟩
  · intro hrpcl h0 h33
    obtain ⟨hn, hlen, hb⟩ := precinct_stores_eq p h0 h33
    refine ⟨?_, hb⟩
    unfold precinct_ops
    rw [if_pos hrpcl, hn]
    congr 2
    rw [List.eq_replicate_iff]
    refine ⟨by simp [hlen], ?_⟩
    intro b hb'
    simp only [List.mem_map] at hb'
    obtain ⟨_, -, rfl⟩ := hb'
    rfl
  · intro hne
    unfold precinct_ops
    rw [if_neg hne]
  · unfold precinct_ops
    constructor
    · intro h
      by_contra hne
      rw [if_neg hne] at h
      exact h rfl
    · intro h
      rw [if_pos h]
      simp
  · intro s log h
    have := run_config_ok_log env.codec _ _ _ _ _ h
    simpa using this

/-- C10 at Scenario D: three components, RPCL, five decompositions give one call with six
entries, each 256x256. -/
theorem C10_precincts_iff_rpcl_witness :
    (config_ops id scenarioD).filter ConfigOp.is_precinct =
      [.set_precinct_size 6 [(256, 256), (256, 256), (256, 256), (256, 256), (256, 256),
        (256, 256)]] ∧
    (∀ i ∈ precinct_stores scenarioD, 0 ≤ i ∧ i < PRECINCTS_LEN) :=
  (C10_precincts_iff_rpcl quietEnv scenarioD).1 (by decide) (by decide) (by decide)

/-! ### C11 -/

theorem set_component_filter (f : ConfigOp → Bool)
    (hf : ∀ c dx dy b s, f (.set_component c dx dy b s) = false) (n b : Nat) (s : Bool) :
    ((List.range n).map (fun c => ConfigOp.set_component c 1 1 b s)).filter f = [] := by
  rw [List.filter_eq_nil_iff]
  intro a ha
  simp only [List.mem_map] at ha
  obtain ⟨c, -, rfl⟩ := ha
  simp [hf]

theorem precinct_ops_filter (f : ConfigOp → Bool)
    (hf : ∀ n l, f (.set_precinct_size n l) = false) (p : ojph_encode_params) :
    (precinct_ops p).filter f = [] := by
  unfold precinct_ops
  split
  · simp [List.filter_cons, hf]
  · rfl

theorem quant_ops_filter (f : ConfigOp → Bool) (hq : f .access_qcd = false)
    (hs : ∀ d, f (.set_irrev_quant d) = false) (f32 : ℚ → ℚ) (p : ojph_encode_params) :
    (quant_ops f32 p).filter f = [] := by
  unfold quant_ops
  split
  · simp [List.filter_cons, hq, hs]
  · rfl

theorem config_ops_color_filter (f32 : ℚ → ℚ) (p : ojph_encode_params) :
    (config_ops f32 p).filter ConfigOp.is_color_transform =
      [.set_color_transform (decide (to_ui32 p.components ≥ 3))] := by
  simp only [config_ops, List.filter_append,
    set_component_filter ConfigOp.is_color_transform (fun _ _ _ _ _ => rfl),
    precinct_ops_filter ConfigOp.is_color_transform (fun _ _ => rfl),
    quant_ops_filter ConfigOp.is_color_transform rfl (fun _ => rfl)]
  simp [List.filter_cons, ConfigOp.is_color_transform]

/-- C11: for a record whose components field is a positive C int, the configuration calls
contain exactly one `set_color_transform`, with argument true exactly when components >= 3;
two records with the same components get the same call, whatever their other fields and
whatever the float rounding. -/
theorem C11_color_transform (f32 : ℚ → ℚ) (p : ojph_encode_params)
    (hpos : 0 < p.components) (hint : p.components < 2147483648) :
    (config_ops f32 p).filter ConfigOp.is_color_transform =
      [.set_color_transform (decide (3 ≤ p.components))] ∧
    ∀ (g32 : ℚ → ℚ) (q : ojph_encode_params), q.components = p.components →
      (config_ops g32 q).filter ConfigOp.is_color_transform =
        (config_ops f32 p).filter ConfigOp.is_color_transform := by
  refine ⟨?_, ?_⟩
  · rw [config_ops_color_filter]
    have h : (to_ui32 p.components ≥ 3) ↔ (3 ≤ p.components) := by
      unfold to_ui32; omega
    simp only [h]
  · intro g32 q hq
    rw [config_ops_color_filter, config_ops_color_filter, hq]

/-- C11 at Scenario B: three components, not reversible, ratio 10: the transform is on. -/
theorem C11_color_transform_witness :
    (config_ops id scenarioB).filter ConfigOp.is_color_transform =
      [.set_color_transform true] :=
  (C11_color_transform id scenarioB (by decide) (by decide)).1

/-! ### C12 -/

theorem config_ops_progression_filter (f32 : ℚ → ℚ) (p : ojph_encode_params) :
    (config_ops f32 p).filter ConfigOp.is_progression =
      [.set_progression_order (progression_name p.progression_order)] := by
  simp only [config_ops, List.filter_append,
    set_component_filter ConfigOp.is_progression (fun _ _ _ _ _ => rfl),
    precinct_ops_filter ConfigOp.is_progression (fun _ _ => rfl),
    quant_ops_filter ConfigOp.is_progression rfl (fun _ => rfl)]
  simp [List.filter_cons, ConfigOp.is_progression]

/-- C12: the configuration calls contain exactly one `set_progression_order`, whose argument
is a total function of progression_order: 0, 1, 2, 3, 4 give "LRCP", "RLCP", "RPCL", "PCRL",
"CPRL", and every other integer gives "LRCP"; the call is made in every case. -/
theorem C12_progression_order (f32 : ℚ → ℚ) (p : ojph_encode_params) :
    (config_ops f32 p).filter ConfigOp.is_progression =
      [.set_progression_order (progression_name p.progression_order)] ∧
    progression_name 0 = "LRCP" ∧ progression_name 1 = "RLCP" ∧ progression_name 2 = "RPCL" ∧
    progression_name 3 = "PCRL" ∧ progression_name 4 = "CPRL" ∧
    (p.progression_order < 0 ∨ 4 < p.progression_order →
      progression_name p.progression_order = "LRCP") := by
  refine ⟨config_ops_progression_filter f32 p, by decide, by decide, by decide, by decide,
    by decide, ?_⟩
  intro h
  unfold progression_name OJPH_PROG_LRCP OJPH_PROG_RLCP OJPH_PROG_RPCL OJPH_PROG_PCRL
    OJPH_PROG_CPRL
  rw [if_neg (by omega), if_neg (by omega), if_neg (by omega), if_neg (by omega),
    if_neg (by omega)]

/-- C12 at progression_order = 7: the name passed is "LRCP". -/
theorem C12_progression_order_witness :
    progression_name order7Params.progression_order = "LRCP" :=
  (C12_progression_order id order7Params).2.2.2.2.2.2 (by decide)

/-! ### C13 -/

theorem config_ops_quant_filter (f32 : ℚ → ℚ) (p : ojph_encode_params) :
    (config_ops f32 p).filter ConfigOp.is_quant = quant_ops f32 p := by
  have hq : (quant_ops f32 p).filter ConfigOp.is_quant = quant_ops f32 p := by
    unfold quant_ops
    split <;> rfl
  simp only [config_ops, List.filter_append,
    set_component_filter ConfigOp.is_quant (fun _ _ _ _ _ => rfl),
    precinct_ops_filter ConfigOp.is_quant (fun _ _ => rfl), hq]
  simp [List.filter_cons, ConfigOp.is_quant]

/-- C13 (counterexample): with bits_per_sample = 16, components = 2^28, ratio 1 and exact
arithmetic, the product bps * comps is computed in ui32 and wraps to 0: the quantisation
target passed is 0, not (16 * 2^28) / 1. -/
theorem C13_product_wraps_counterexample :
    wideParams.reversible = 0 ∧ wideParams.compression_ratio > 0 ∧
    (config_ops id wideParams).filter ConfigOp.is_quant = [.access_qcd, .set_irrev_quant 0] ∧
    ¬ ((config_ops id wideParams).filter ConfigOp.is_quant =
      [.access_qcd, .set_irrev_quant
        ((wideParams.bits_per_sample * wideParams.components : Int) /
          wideParams.compression_ratio)]) := by
  have h : quant_ops id wideParams = [.access_qcd, .set_irrev_quant 0] := by
    simp [quant_ops, wideParams, to_ui32, U32_MOD]
  refine ⟨rfl, by simp [wideParams], ?_, ?_⟩
  · rw [config_ops_quant_filter, h]
  · rw [config_ops_quant_filter, h]
    simp [wideParams]

/-- C13 (amended): the configuration calls touch the quantisation parameters exactly when
reversible is 0 and compression_ratio > 0, and then by one `set_irrev_quant` whose argument is
float(float(bps * comps) * float(1 / ratio)) with the product taken in ui32; with exact
arithmetic, bits_per_sample and components non-negative C ints and their product below 2^32,
that argument is (bits_per_sample * components) / compression_ratio. -/
theorem C13_quantisation_target (f32 : ℚ → ℚ) (p : ojph_encode_params) :
    (p.reversible = 0 ∧ p.compression_ratio > 0 →
      (config_ops f32 p).filter ConfigOp.is_quant =
        [.access_qcd, .set_irrev_quant
          (f32 (f32 ((to_ui32 p.bits_per_sample * to_ui32 p.components % U32_MOD : Nat) : ℚ)
            * f32 (1 / p.compression_ratio)))]) ∧
    (¬ (p.reversible = 0 ∧ p.compression_ratio > 0) →
      (config_ops f32 p).filter ConfigOp.is_quant = []) ∧
    ((config_ops f32 p).filter ConfigOp.is_quant ≠ [] ↔
      (p.reversible = 0 ∧ p.compression_ratio > 0)) ∧
    (p.reversible = 0 ∧ p.compression_ratio > 0 →
      0 ≤ p.bits_per_sample → p.bits_per_sample < 2147483648 →
      0 ≤ p.components → p.components < 2147483648 →
      p.bits_per_sample * p.components < 4294967296 →
      (config_ops id p).filter ConfigOp.is_quant =
        [.access_qcd, .set_irrev_quant
          ((p.bits_per_sample * p.components : Int) / p.compression_ratio)]) := by
  rw [config_ops_quant_filter, config_ops_quant_filter]
  refine ⟨?_, ?_, ?_, ?_⟩
  · intro h
    unfold quant_ops
    rw [if_pos h]
  · intro h
    unfold quant_ops
    rw [if_neg h]
  · unfold quant_ops
    constructor
    · intro h
      by_contra hne
      rw [if_neg hne] at h
      exact h rfl
    · intro h
      rw [if_pos h]
      simp
  · intro h hb hb31 hc hc31 hlt
    unfold quant_ops
    rw [if_pos h]
    obtain ⟨b, hb'⟩ := Int.eq_ofNat_of_zero_le hb
    obtain ⟨c, hc'⟩ := Int.eq_ofNat_of_zero_le hc
    rw [hb'] at hb31 hlt
    rw [hc'] at hc31 hlt
    have hlt' : b * c < 4294967296 := by exact_mod_cast hlt
    have hbu : to_ui32 p.bits_per_sample = b := by
      rw [hb']; exact to_ui32_of_nat b (by omega)
    have hcu : to_ui32 p.components = c := by
      rw [hc']; exact to_ui32_of_nat c (by omega)
    have hmod : b * c % U32_MOD = b * c := Nat.mod_eq_of_lt hlt'
    rw [hbu, hcu, hmod, hb', hc']
    simp only [id_eq]
    congr 2
    push_cast
    ring_nf

/-- C13 at Scenario B: 8 bits, 3 components, ratio 10 give the target 12/5 = 2.4. -/
theorem C13_quantisation_target_witness :
    (config_ops id scenarioB).filter ConfigOp.is_quant =
      [.access_qcd, .set_irrev_quant ((scenarioB.bits_per_sample * scenarioB.components : Int) /
        scenarioB.compression_ratio)] ∧
    ((scenarioB.bits_per_sample * scenarioB.components : Int) / scenarioB.compression_ratio : ℚ)
      = 12 / 5 :=
  ⟨(C13_quantisation_target id scenarioB).2.2.2 ⟨rfl, by norm_num [scenarioB]⟩ (by decide)
    (by decide) (by decide) (by decide) (by decide), by norm_num [scenarioB]⟩

/-! ### C14 -/

theorem spec_feed_add {σ : Type} (env : Env σ) (raw_data : Int → Byte) (width comps bytes : Nat)
    (is_signed : Bool) (b : Nat) :
    ∀ (a k : Nat) (st : FeedState σ),
      spec_feed env raw_data width comps bytes is_signed (a + b) k st =
        match spec_feed env raw_data width comps bytes is_signed a k st with
        | (.ret st', _) => spec_feed env raw_data width comps bytes is_signed b (k + a) st'
        | r => r := by
  intro a
  induction a with
  | zero => intro k st; simp [spec_feed]
  | succ a ih =>
    intro k st
    rw [show a + 1 + b = (a + b) + 1 by omega]
    simp only [spec_feed]
    rcases hf : feed_line env raw_data width comps bytes is_signed (k / comps) st with ⟨o, l⟩
    cases o with
    | ret st1 =>
      simp only
      rw [ih (k + 1) st1, show k + 1 + a = k + (a + 1) by omega]
    | throws e => rfl
    | diverges => rfl

theorem feed_comps_eq_spec {σ : Type} (env : Env σ) (raw_data : Int → Byte)
    (width comps bytes : Nat) (is_signed : Bool) (y : Nat) :
    ∀ (n i : Nat) (st : FeedState σ), i + n ≤ comps →
      feed_comps env raw_data width comps bytes is_signed y n st =
        spec_feed env raw_data width comps bytes is_signed n (y * comps + i) st := by
  intro n
  induction n with
  | zero => intro i st _; simp [feed_comps, spec_feed]
  | succ n ih =>
    intro i st hi
    have hc : 0 < comps := by omega
    have hdiv : (y * comps + i) / comps = y := by
      rw [Nat.mul_comm, Nat.mul_add_div hc, Nat.div_eq_of_lt (by omega), Nat.add_zero]
    simp only [feed_comps, spec_feed, hdiv]
    rcases hf : feed_line env raw_data width comps bytes is_signed y st with ⟨o, l⟩
    cases o with
    | ret st1 =>
      simp only
      rw [ih (i + 1) st1 (by omega), show y * comps + (i + 1) = y * comps + i + 1 by omega]
    | throws e => rfl
    | diverges => rfl

theorem feed_rows_eq_spec {σ : Type} (env : Env σ) (raw_data : Int → Byte)
    (width comps bytes : Nat) (is_signed : Bool) :
    ∀ (h y : Nat) (st : FeedState σ),
      feed_rows env raw_data width comps bytes is_signed h y st =
        spec_feed env raw_data width comps bytes is_signed (h * comps) (y * comps) st := by
  intro h
  induction h with
  | zero => intro y st; simp [feed_rows, spec_feed]
  | succ h ih =>
    intro y st
    rw [show (h + 1) * comps = comps + h * comps by rw [Nat.succ_mul]; omega, spec_feed_add]
    have hc := feed_comps_eq_spec env raw_data width comps bytes is_signed y comps 0 st
      (by omega)
    rw [Nat.add_zero] at hc
    simp only [feed_rows, hc]
    rcases hf : spec_feed env raw_data width comps bytes is_signed comps (y * comps) st
      with ⟨o, l⟩
    cases o with
    | ret st1 =>
      simp only
      rw [ih (y + 1) st1, show (y + 1) * comps = y * comps + comps by rw [Nat.succ_mul]]
    | throws e => rfl
    | diverges => rfl
theorem exchanged_lines_append (a b : List Ev) :
    exchanged_lines (a ++ b) = exchanged_lines a ++ exchanged_lines b := by
  induction a with
  | nil => rfl
  | cons e a ih =>
    cases e with
    | exchange line =>
      cases line with
      | none => simpa [exchanged_lines] using ih
      | some l => simp [exchanged_lines, ih]
    | _ => simpa [exchanged_lines] using ih

theorem exchanged_lines_reads (l : List Int) : exchanged_lines (l.map Ev.raw_read) = [] := by
  induction l with
  | nil => rfl
  | cons a l ih => simpa [exchanged_lines] using ih

theorem exchanged_lines_config (l : List ConfigOp) : exchanged_lines (l.map Ev.config) = [] := by
  induction l with
  | nil => rfl
  | cons a l ih => simpa [exchanged_lines] using ih

theorem filter_exchange_reads (l : List Int) :
    (l.map Ev.raw_read).filter Ev.is_exchange = [] := by
  rw [List.filter_eq_nil_iff]
  intro a ha
  simp only [List.mem_map] at ha
  obtain ⟨i, -, rfl⟩ := ha
  simp [Ev.is_exchange]

theorem filter_exchange_config (l : List ConfigOp) :
    (l.map Ev.config).filter Ev.is_exchange = [] := by
  rw [List.filter_eq_nil_iff]
  intro a ha
  simp only [List.mem_map] at ha
  obtain ⟨i, -, rfl⟩ := ha
  simp [Ev.is_exchange]

/-- What one returning iteration adds to the log: the reads of the line, then one exchange
that submits the line filled for the component the codec asked for. -/
theorem feed_line_ret {σ : Type} (env : Env σ) (raw_data : Int → Byte) (width comps bytes : Nat)
    (is_signed : Bool) (y : Nat) (st st' : FeedState σ) (l : List Ev)
    (h : feed_line env raw_data width comps bytes is_signed y st = (.ret st', l)) :
    st'.log = st.log ++ (line_reads width comps bytes y st.next_comp).map Ev.raw_read
        ++ [.exchange (some (fill_line raw_data width comps bytes is_signed y st.next_comp))] ∧
    (st'.log.filter Ev.is_exchange).length = (st.log.filter Ev.is_exchange).length + 1 ∧
    exchanged_lines st'.log = exchanged_lines st.log ++
      [fill_line raw_data width comps bytes is_signed y st.next_comp] := by
  obtain ⟨h1, h2⟩ := feed_line_log env raw_data width comps bytes is_signed y st
  rw [h] at h1 h2
  have hlog := h2 st' rfl
  simp only at h1 hlog
  rw [hlog, h1]
  refine ⟨rfl, ?_, ?_⟩
  · simp [List.filter_append, filter_exchange_reads, Ev.is_exchange]
  · simp [exchanged_lines_append, exchanged_lines_reads, exchanged_lines]

/-- A returning run of the flat feeding loop makes one exchange per line. -/
theorem spec_feed_count {σ : Type} (env : Env σ) (raw_data : Int → Byte)
    (width comps bytes : Nat) (is_signed : Bool) :
    ∀ (n k : Nat) (st st' : FeedState σ) (l : List Ev),
      spec_feed env raw_data width comps bytes is_signed n k st = (.ret st', l) →
      l = st'.log ∧
      (st'.log.filter Ev.is_exchange).length = (st.log.filter Ev.is_exchange).length + n ∧
      (exchanged_lines st'.log).length = (exchanged_lines st.log).length + n := by
  intro n
  induction n with
  | zero =>
    intro k st st' l h
    simp only [spec_feed, Prod.mk.injEq, Outcome.ret.injEq] at h
    obtain ⟨h1, h2⟩ := h
    subst h1
    exact ⟨h2.symm, rfl, rfl⟩
  | succ n ih =>
    intro k st st' l h
    simp only [spec_feed] at h
    rcases hf : feed_line env raw_data width comps bytes is_signed (k / comps) st with ⟨o, l1⟩
    rw [hf] at h
    cases o with
    | ret st1 =>
      simp only at h
      obtain ⟨-, hc, hx⟩ := feed_line_ret env raw_data width comps bytes is_signed _ st st1 l1 hf
      obtain ⟨hl, hc', hx'⟩ := ih (k + 1) st1 st' l h
      refine ⟨hl, by omega, ?_⟩
      rw [hx', hx]
      simp
      omega
    | throws e => simp at h
    | diverges => simp at h
/-- A run of the part of the try block after the configuration that reaches `release()`
has made the initial exchange and one exchange per row and component. -/
theorem encode_stream_count {σ : Type} (env : Env σ) (raw_data : Int → Byte)
    (p : ojph_encode_params) (s0 : σ) (log0 : List Ev) (r : ojph_encode_result)
    (h : (encode_stream env raw_data p s0 log0).1 = .ret r) :
    ((encode_stream env raw_data p s0 log0).2.filter Ev.is_exchange).length =
      (log0.filter Ev.is_exchange).length + 1 + to_ui32 p.height * to_ui32 p.components ∧
    (exchanged_lines (encode_stream env raw_data p s0 log0).2).length =
      (exchanged_lines log0).length + to_ui32 p.height * to_ui32 p.components := by
  unfold encode_stream at h ⊢
  simp only at h ⊢
  split at h
  · simp at h
  · simp at h
  · split at h
    · simp at h
    · simp at h
    · split at h
      · simp at h
      · simp at h
      · rename_i s2 next_comp sink3 _
        rw [feed_rows_eq_spec] at h ⊢
        split at h
        · simp at h
        · simp at h
        · rename_i st x hfeed
          obtain ⟨-, hc, hx⟩ := spec_feed_count env raw_data _ _ _ _ _ _ _ st x hfeed
          split at h
          · simp at h
          · simp at h
          · split at h
            · simp at h
            · simp at h
            · simp only [List.filter_append, List.length_append, exchanged_lines_append, hc, hx]
              simp [Ev.is_exchange, exchanged_lines]

theorem encode_try_success {σ : Type} (env : Env σ) (raw_data : Int → Byte) (raw_size : Nat)
    (p : ojph_encode_params) (r : ojph_encode_result) (log : List Ev)
    (h : ojph_encode env raw_data raw_size p = some (r, log)) (hd : r.data ≠ none) :
    ∃ s0, run_config env.codec (config_ops env.f32 p) env.codec.init [] =
        (.ok s0, (config_ops env.f32 p).map Ev.config) ∧
      encode_stream env raw_data p s0 ((config_ops env.f32 p).map Ev.config) = (.ret r, log) := by
  unfold ojph_encode at h
  rcases ht : encode_try env raw_data raw_size p with ⟨o, l⟩
  rw [ht] at h
  cases o with
  | ret r' =>
    simp only [Option.some.injEq, Prod.mk.injEq] at h
    obtain ⟨hr, hl⟩ := h
    subst hr hl
    unfold encode_try at ht
    split at ht
    · simp only [Prod.mk.injEq, Outcome.ret.injEq] at ht
      obtain ⟨hr, -⟩ := ht
      subst hr
      exact absurd rfl hd
    · split at ht
      · simp at ht
      · rename_i s0 log0 hrun
        have hlog := run_config_ok_log env.codec _ _ _ _ _ hrun
        simp only [List.nil_append] at hlog
        subst hlog
        exact ⟨s0, hrun, ht⟩
  | throws e =>
    simp only [Option.some.injEq, Prod.mk.injEq] at h
    obtain ⟨hr, -⟩ := h
    subst hr
    exact absurd (encode_catch_data env.malloc_ok e).1 hd
  | diverges => simp at h
theorem cyclic_run_config (c : Nat) (ops : List ConfigOp) :
    ∀ (s : Nat) (log : List Ev),
      run_config (cyclicCodec c) ops s log = (.ok s, log ++ ops.map Ev.config) := by
  induction ops with
  | nil => intro s log; simp [run_config]
  | cons op ops ih =>
    intro s log
    have hc : (cyclicCodec c).configure s op = .ok s := rfl
    simp [run_config, hc, ih]

theorem cyclic_feed_line (c : Nat) (raw_data : Int → Byte) (width bytes : Nat)
    (is_signed : Bool) (y : Nat) (st : FeedState Nat) :
    feed_line (cyclicEnv c) raw_data width c bytes is_signed y st =
      (.ret { codec := st.codec + 1, sink := st.sink, next_comp := st.codec % c,
              log := st.log ++ (line_reads width c bytes y st.next_comp).map Ev.raw_read
                ++ [.exchange (some (fill_line raw_data width c bytes is_signed y
                  st.next_comp))] },
       st.log ++ (line_reads width c bytes y st.next_comp).map Ev.raw_read
         ++ [.exchange (some (fill_line raw_data width c bytes is_signed y st.next_comp))]) := by
  rfl

/-- With the cyclic codec the flat loop returns, and line `k` is the one of row `k / c` and
component `k % c`. -/
theorem cyclic_spec_feed (c : Nat) (raw_data : Int → Byte) (width bytes : Nat)
    (is_signed : Bool) :
    ∀ (n k : Nat) (st : FeedState Nat), st.codec = k + 1 → st.next_comp = k % c →
      ∃ st', spec_feed (cyclicEnv c) raw_data width c bytes is_signed n k st =
          (.ret st', st'.log) ∧
        st'.sink = st.sink ∧
        exchanged_lines st'.log = exchanged_lines st.log ++
          (List.range' k n).map
            (fun j => fill_line raw_data width c bytes is_signed (j / c) (j % c)) := by
  intro n
  induction n with
  | zero => intro k st _ _; exact ⟨st, rfl, rfl, by simp⟩
  | succ n ih =>
    intro k st hcodec hnc
    simp only [spec_feed, cyclic_feed_line]
    obtain ⟨st', h1, h2, h3⟩ := ih (k + 1)
      { codec := st.codec + 1, sink := st.sink, next_comp := st.codec % c,
        log := st.log ++ (line_reads width c bytes (k / c) st.next_comp).map Ev.raw_read
          ++ [.exchange (some (fill_line raw_data width c bytes is_signed (k / c)
            st.next_comp))] }
      (by simp [hcodec]) (by simp [hcodec])
    refine ⟨st', h1, h2, ?_⟩
    rw [h3]
    simp only [exchanged_lines_append, exchanged_lines_reads, exchanged_lines, hnc,
      List.range'_succ, List.map_cons, List.append_nil, List.append_assoc, List.singleton_append,
      List.nil_append]

/-- The run of `ojph_encode` with the cyclic codec: it returns, and the lines it submits are,
in order, those of row `k / comps` and component `k % comps` for k = 0, 1, ... -/
theorem cyclic_encode (raw_data : Int → Byte) (raw_size : Nat) (p : ojph_encode_params)
    (hsize : ¬ raw_size < expected_size p) :
    ∃ r log, ojph_encode (cyclicEnv (to_ui32 p.components)) raw_data raw_size p = some (r, log) ∧
      exchanged_lines log =
        (List.range (to_ui32 p.height * to_ui32 p.components)).map
          (fun k => fill_line raw_data (to_ui32 p.width) (to_ui32 p.components)
            (bytes_per_sample (to_ui32 p.bits_per_sample)) (decide (p.is_signed ≠ 0))
            (k / to_ui32 p.components) (k % to_ui32 p.components)) := by
  have hq : (cyclicEnv (to_ui32 p.components)).codec = cyclicCodec (to_ui32 p.components) := rfl
  have hmal : (cyclicEnv (to_ui32 p.components)).malloc_ok = fun _ => true := rfl
  have hw : ∀ s, (cyclicCodec (to_ui32 p.components)).write_headers s =
      { writes := [], outcome := .ok (s, ()) } := fun _ => rfl
  have hx : ∀ s l, (cyclicCodec (to_ui32 p.components)).exchange s l =
      { writes := [], outcome := .ok (s + 1, s % to_ui32 p.components) } := fun _ _ => rfl
  have hf : ∀ s, (cyclicCodec (to_ui32 p.components)).flush s =
      { writes := [], outcome := .ok (s, ()) } := fun _ => rfl
  have hcl : ∀ s, (cyclicCodec (to_ui32 p.components)).close s =
      { writes := [], outcome := .ok (s, ()) } := fun _ => rfl
  have hinit : (cyclicCodec (to_ui32 p.components)).init = 0 := rfl
  unfold ojph_encode encode_try
  rw [if_neg hsize, hq, hinit, cyclic_run_config]
  generalize config_ops (cyclicEnv (to_ui32 p.components)).f32 p = ops
  obtain ⟨st', h1, -, h3⟩ := cyclic_spec_feed (to_ui32 p.components) raw_data (to_ui32 p.width)
    (bytes_per_sample (to_ui32 p.bits_per_sample)) (decide (p.is_signed ≠ 0))
    (to_ui32 p.height * to_ui32 p.components) 0
    { codec := 1, sink := { buf_ := some [], size_ := 0, capacity_ := 65536 },
      next_comp := 0 % to_ui32 p.components,
      log := [] ++ ops.map Ev.config ++ [.sink_open] ++ [.write_headers] ++ [.exchange none] }
    rfl rfl
  unfold encode_stream
  simp only [hq, hw, hx, hf, hcl, hmal, jni_mem_outfile.open_, if_true, codec_call,
    apply_writes, feed_rows_eq_spec, Nat.zero_mul, Nat.zero_add]
  rw [h1]
  refine ⟨_, _, rfl, ?_⟩
  simp only [exchanged_lines_append, h3, exchanged_lines_config, exchanged_lines,
    List.nil_append, List.append_nil, List.range_eq_range']
theorem feed_line_next_comp {σ : Type} (env : Env σ) (raw_data : Int → Byte)
    (width comps bytes : Nat) (is_signed : Bool) (y : Nat) (st st' : FeedState σ) (l : List Ev)
    (h : feed_line env raw_data width comps bytes is_signed y st = (.ret st', l)) :
    codec_call env.realloc_ok st.sink (env.codec.exchange st.codec
      (some (fill_line raw_data width comps bytes is_signed y st.next_comp))) =
      .ret (st'.codec, st'.next_comp, st'.sink) := by
  simp only [feed_line] at h
  split at h
  · rename_i s nc sink hc
    simp only [Prod.mk.injEq, Outcome.ret.injEq] at h
    obtain ⟨hst, -⟩ := h
    subst hst
    exact hc
  · simp at h
  · simp at h

theorem spec_feed_log {σ : Type} (env : Env σ) (raw_data : Int → Byte)
    (width comps bytes : Nat) (is_signed : Bool) :
    ∀ (n k : Nat) (st : FeedState σ),
      st.log <+: (spec_feed env raw_data width comps bytes is_signed n k st).2 := by
  intro n
  induction n with
  | zero => intro k st; simp [spec_feed]
  | succ n ih =>
    intro k st
    obtain ⟨hl, hr⟩ := feed_line_log env raw_data width comps bytes is_signed (k / comps) st
    simp only [spec_feed]
    rcases hf : feed_line env raw_data width comps bytes is_signed (k / comps) st with ⟨o, l⟩
    rw [hf] at hl hr
    simp only at hl
    have hpre : st.log <+: l := by
      rw [hl, List.append_assoc]; exact List.prefix_append _ _
    cases o with
    | ret st1 =>
      simp only
      have h1 : st1.log = l := hr st1 rfl
      exact (h1 ▸ hpre).trans (ih (k + 1) st1)
    | throws e => exact hpre
    | diverges => exact hpre

/-- The first line: whatever the codec, once the initial exchange has returned the index
`nc`, the log of the stream part goes on with the reads of row 0 for component `nc` and the
exchange of the line filled from them. -/
theorem encode_stream_first_line {σ : Type} (env : Env σ) (raw_data : Int → Byte)
    (p : ojph_encode_params) (s0 s1 s2 : σ) (u : Unit) (nc : Nat)
    (sink1 sink2 sink3 : jni_mem_outfile) (log0 : List Ev)
    (hopen : jni_mem_outfile.ctor.open_ env.malloc_ok = .ret sink1)
    (hwh : codec_call env.realloc_ok sink1 (env.codec.write_headers s0) = .ret (s1, u, sink2))
    (hex : codec_call env.realloc_ok sink2 (env.codec.exchange s1 none) = .ret (s2, nc, sink3))
    (hh : 0 < to_ui32 p.height) (hc : 0 < to_ui32 p.components) :
    log0 ++ [.sink_open] ++ [.write_headers] ++ [.exchange none]
      ++ (line_reads (to_ui32 p.width) (to_ui32 p.components)
            (bytes_per_sample (to_ui32 p.bits_per_sample)) 0 nc).map Ev.raw_read
      ++ [.exchange (some (fill_line raw_data (to_ui32 p.width) (to_ui32 p.components)
            (bytes_per_sample (to_ui32 p.bits_per_sample)) (decide (p.is_signed ≠ 0)) 0 nc))]
      <+: (encode_stream env raw_data p s0 log0).2 := by
  obtain ⟨n, hn⟩ : ∃ n, to_ui32 p.height * to_ui32 p.components = n + 1 :=
    ⟨to_ui32 p.height * to_ui32 p.components - 1, by
      have := Nat.mul_pos hh hc
      omega⟩
  unfold encode_stream
  simp only [hopen, hwh, hex, feed_rows_eq_spec, Nat.zero_mul, hn]
  obtain ⟨st0, hst⟩ : ∃ st0 : FeedState σ, st0 =
      { codec := s2, sink := sink3, next_comp := nc,
        log := log0 ++ [Ev.sink_open] ++ [Ev.write_headers] ++ [Ev.exchange none] } :=
    ⟨_, rfl⟩
  rw [← hst]
  have hlog0 : st0.log = log0 ++ [Ev.sink_open] ++ [Ev.write_headers] ++ [Ev.exchange none] := by
    rw [hst]
  have hnc : st0.next_comp = nc := by rw [hst]
  obtain ⟨hl, hr⟩ := feed_line_log env raw_data (to_ui32 p.width) (to_ui32 p.components)
    (bytes_per_sample (to_ui32 p.bits_per_sample)) (decide (p.is_signed ≠ 0)) 0 st0
  rw [hlog0, hnc] at hl
  have hfeed : log0 ++ [.sink_open] ++ [.write_headers] ++ [.exchange none]
      ++ (line_reads (to_ui32 p.width) (to_ui32 p.components)
            (bytes_per_sample (to_ui32 p.bits_per_sample)) 0 nc).map Ev.raw_read
      ++ [.exchange (some (fill_line raw_data (to_ui32 p.width) (to_ui32 p.components)
            (bytes_per_sample (to_ui32 p.bits_per_sample)) (decide (p.is_signed ≠ 0)) 0 nc))]
      <+: (spec_feed env raw_data (to_ui32 p.width) (to_ui32 p.components)
        (bytes_per_sample (to_ui32 p.bits_per_sample)) (decide (p.is_signed ≠ 0))
        (n + 1) 0 st0).2 := by
    simp only [spec_feed, Nat.zero_div]
    rcases hf : feed_line env raw_data (to_ui32 p.width) (to_ui32 p.components)
      (bytes_per_sample (to_ui32 p.bits_per_sample)) (decide (p.is_signed ≠ 0)) 0 st0
      with ⟨o, l⟩
    rw [hf] at hl hr
    simp only at hl
    cases o with
    | ret st1 =>
      simp only
      have h1 : st1.log = l := hr st1 rfl
      rw [← hl, ← h1]
      exact spec_feed_log env raw_data _ _ _ _ n (0 + 1) st1
    | throws e => simp only; rw [hl]
    | diverges => simp only; rw [hl]
  rcases hs : spec_feed env raw_data (to_ui32 p.width) (to_ui32 p.components)
    (bytes_per_sample (to_ui32 p.bits_per_sample)) (decide (p.is_signed ≠ 0))
    (n + 1) 0 st0 with ⟨o, l⟩
  rw [hs] at hfeed
  simp only at hfeed
  cases o with
  | throws e => exact hfeed
  | diverges => exact hfeed
  | ret st =>
    obtain ⟨hl', -, -⟩ := spec_feed_count env raw_data _ _ _ _ _ _ _ st l hs
    have hpre := hl' ▸ hfeed
    simp only
    split
    · exact hpre.trans (List.prefix_append _ _)
    · exact hpre.trans (List.prefix_append _ _)
    · split
      · exact hpre.trans ((List.prefix_append _ _).trans (List.prefix_append _ _))
      · exact hpre.trans ((List.prefix_append _ _).trans (List.prefix_append _ _))
      · exact hpre.trans ((List.prefix_append _ _).trans
          ((List.prefix_append _ _).trans (List.prefix_append _ _)))

theorem sequence_run_config (f : Nat → Nat) (ops : List ConfigOp) :
    ∀ (s : Nat) (log : List Ev),
      run_config (sequenceCodec f) ops s log = (.ok s, log ++ ops.map Ev.config) := by
  induction ops with
  | nil => intro s log; simp [run_config]
  | cons op ops ih =>
    intro s log
    have hc : (sequenceCodec f).configure s op = .ok s := rfl
    simp [run_config, hc, ih]

theorem sequence_feed_line (f : Nat → Nat) (raw_data : Int → Byte) (width comps bytes : Nat)
    (is_signed : Bool) (y : Nat) (st : FeedState Nat) :
    feed_line (sequenceEnv f) raw_data width comps bytes is_signed y st =
      (.ret { codec := st.codec + 1, sink := st.sink, next_comp := f st.codec,
              log := st.log ++ (line_reads width comps bytes y st.next_comp).map Ev.raw_read
                ++ [.exchange (some (fill_line raw_data width comps bytes is_signed y
                  st.next_comp))] },
       st.log ++ (line_reads width comps bytes y st.next_comp).map Ev.raw_read
         ++ [.exchange (some (fill_line raw_data width comps bytes is_signed y
           st.next_comp))]) := by
  rfl

/-- With a codec that answers exchange call number `k` with `f k`, the flat loop returns and
line `j` is the one of row `j / comps` and component `f j`. -/
theorem sequence_spec_feed (f : Nat → Nat) (raw_data : Int → Byte) (width comps bytes : Nat)
    (is_signed : Bool) :
    ∀ (n k : Nat) (st : FeedState Nat), st.codec = k + 1 → st.next_comp = f k →
      ∃ st', spec_feed (sequenceEnv f) raw_data width comps bytes is_signed n k st =
          (.ret st', st'.log) ∧
        st'.sink = st.sink ∧
        exchanged_lines st'.log = exchanged_lines st.log ++
          (List.range' k n).map
            (fun j => fill_line raw_data width comps bytes is_signed (j / comps) (f j)) := by
  intro n
  induction n with
  | zero => intro k st _ _; exact ⟨st, rfl, rfl, by simp⟩
  | succ n ih =>
    intro k st hcodec hnc
    simp only [spec_feed, sequence_feed_line]
    obtain ⟨st', h1, h2, h3⟩ := ih (k + 1)
      { codec := st.codec + 1, sink := st.sink, next_comp := f st.codec,
        log := st.log ++ (line_reads width comps bytes (k / comps) st.next_comp).map Ev.raw_read
          ++ [.exchange (some (fill_line raw_data width comps bytes is_signed (k / comps)
            st.next_comp))] }
      (by simp [hcodec]) (by simp [hcodec])
    refine ⟨st', h1, h2, ?_⟩
    rw [h3]
    simp only [exchanged_lines_append, exchanged_lines_reads, exchanged_lines, hnc,
      List.range'_succ, List.map_cons, List.append_nil, List.append_assoc, List.singleton_append,
      List.nil_append]

/-- The run of `ojph_encode` with a codec that answers exchange call number `k` with `f k`
(the initial call, which passes no buffer, is number 0): it returns without error, and line
number `k` is the one of row `k / comps` filled for component `f k`. -/
theorem sequence_encode (f : Nat → Nat) (raw_data : Int → Byte) (raw_size : Nat)
    (p : ojph_encode_params) (hsize : ¬ raw_size < expected_size p) :
    ∃ r log, ojph_encode (sequenceEnv f) raw_data raw_size p = some (r, log) ∧
      r.error = none ∧
      exchanged_lines log =
        (List.range (to_ui32 p.height * to_ui32 p.components)).map
          (fun k => fill_line raw_data (to_ui32 p.width) (to_ui32 p.components)
            (bytes_per_sample (to_ui32 p.bits_per_sample)) (decide (p.is_signed ≠ 0))
            (k / to_ui32 p.components) (f k)) := by
  have hq : (sequenceEnv f).codec = sequenceCodec f := rfl
  have hmal : (sequenceEnv f).malloc_ok = fun _ => true := rfl
  have hw : ∀ s, (sequenceCodec f).write_headers s =
      { writes := [], outcome := .ok (s, ()) } := fun _ => rfl
  have hx : ∀ s l, (sequenceCodec f).exchange s l =
      { writes := [], outcome := .ok (s + 1, f s) } := fun _ _ => rfl
  have hf : ∀ s, (sequenceCodec f).flush s =
      { writes := [], outcome := .ok (s, ()) } := fun _ => rfl
  have hcl : ∀ s, (sequenceCodec f).close s =
      { writes := [], outcome := .ok (s, ()) } := fun _ => rfl
  have hinit : (sequenceCodec f).init = 0 := rfl
  unfold ojph_encode encode_try
  rw [if_neg hsize, hq, hinit, sequence_run_config]
  generalize config_ops (sequenceEnv f).f32 p = ops
  obtain ⟨st', h1, -, h3⟩ := sequence_spec_feed f raw_data (to_ui32 p.width)
    (to_ui32 p.components)
    (bytes_per_sample (to_ui32 p.bits_per_sample)) (decide (p.is_signed ≠ 0))
    (to_ui32 p.height * to_ui32 p.components) 0
    { codec := 1, sink := { buf_ := some [], size_ := 0, capacity_ := 65536 },
      next_comp := f 0,
      log := [] ++ ops.map Ev.config ++ [.sink_open] ++ [.write_headers] ++ [.exchange none] }
    rfl rfl
  unfold encode_stream
  simp only [hq, hw, hx, hf, hcl, hmal, jni_mem_outfile.open_, if_true, codec_call,
    apply_writes, feed_rows_eq_spec, Nat.zero_mul, Nat.zero_add]
  rw [h1]
  refine ⟨_, _, rfl, rfl, ?_⟩
  simp only [exchanged_lines_append, h3, exchanged_lines_config, exchanged_lines,
    List.nil_append, List.append_nil, List.range_eq_range']

/-- C14: the nested loops over rows and components are the flat loop of the specification, in
which line number k is filled from row k / comps and from the component index the codec
returned in the preceding exchange. For every codec: a returning iteration for row y logs
the reads of that line and the exchange of the line filled for `next_comp`, and takes its
next `next_comp` from that exchange, not from a counter; and once the initial exchange, which
passes no buffer, has returned the index nc, the run goes on with the reads of row 0 for
component nc and submits the line filled from them. For a codec that answers exchange call
number k with f k, for an arbitrary sequence f, the run returns and line number k is the one
of row k / comps and component f k; with the cyclic sequence 0, 1, ..., comps-1 the lines are
in row-major, component-minor order. -/
theorem C14_feeding_order {σ : Type} (env : Env σ) (raw_data : Int → Byte) (raw_size : Nat)
    (p : ojph_encode_params) (width comps bytes : Nat) (is_signed : Bool) (f : Nat → Nat) :
    (∀ (height : Nat) (st : FeedState σ),
      feed_rows env raw_data width comps bytes is_signed height 0 st =
        spec_feed env raw_data width comps bytes is_signed (height * comps) 0 st) ∧
    (∀ (y : Nat) (st st' : FeedState σ) (l : List Ev),
      feed_line env raw_data width comps bytes is_signed y st = (.ret st', l) →
      st'.log = st.log ++ (line_reads width comps bytes y st.next_comp).map Ev.raw_read
        ++ [.exchange (some (fill_line raw_data width comps bytes is_signed y st.next_comp))] ∧
      codec_call env.realloc_ok st.sink (env.codec.exchange st.codec
        (some (fill_line raw_data width comps bytes is_signed y st.next_comp))) =
        .ret (st'.codec, st'.next_comp, st'.sink)) ∧
    (¬ raw_size < expected_size p →
      ∃ r log, ojph_encode (cyclicEnv (to_ui32 p.components)) raw_data raw_size p
          = some (r, log) ∧
        exchanged_lines log =
          (List.range (to_ui32 p.height * to_ui32 p.components)).map
            (fun k => fill_line raw_data (to_ui32 p.width) (to_ui32 p.components)
              (bytes_per_sample (to_ui32 p.bits_per_sample)) (decide (p.is_signed ≠ 0))
              (k / to_ui32 p.components) (k % to_ui32 p.components))) ∧
    (∀ (s0 s1 s2 : σ) (u : Unit) (nc : Nat) (sink1 sink2 sink3 : jni_mem_outfile)
      (log0 : List Ev),
      jni_mem_outfile.ctor.open_ env.malloc_ok = .ret sink1 →
      codec_call env.realloc_ok sink1 (env.codec.write_headers s0) = .ret (s1, u, sink2) →
      codec_call env.realloc_ok sink2 (env.codec.exchange s1 none) = .ret (s2, nc, sink3) →
      0 < to_ui32 p.height → 0 < to_ui32 p.components →
      log0 ++ [.sink_open] ++ [.write_headers] ++ [.exchange none]
        ++ (line_reads (to_ui32 p.width) (to_ui32 p.components)
              (bytes_per_sample (to_ui32 p.bits_per_sample)) 0 nc).map Ev.raw_read
        ++ [.exchange (some (fill_line raw_data (to_ui32 p.width) (to_ui32 p.components)
              (bytes_per_sample (to_ui32 p.bits_per_sample)) (decide (p.is_signed ≠ 0)) 0 nc))]
        <+: (encode_stream env raw_data p s0 log0).2) ∧
    (¬ raw_size < expected_size p →
      ∃ r log, ojph_encode (sequenceEnv f) raw_data raw_size p = some (r, log) ∧
        r.error = none ∧
        exchanged_lines log =
          (List.range (to_ui32 p.height * to_ui32 p.components)).map
            (fun k => fill_line raw_data (to_ui32 p.width) (to_ui32 p.components)
              (bytes_per_sample (to_ui32 p.bits_per_sample)) (decide (p.is_signed ≠ 0))
              (k / to_ui32 p.components) (f k))) := by
  refine ⟨?_, ?_, cyclic_encode raw_data raw_size p, ?_, sequence_encode f raw_data raw_size p⟩
  · intro height st
    have := feed_rows_eq_spec env raw_data width comps bytes is_signed height 0 st
    simpa using this
  · intro y st st' l h
    exact ⟨(feed_line_ret env raw_data width comps bytes is_signed y st st' l h).1,
      feed_line_next_comp env raw_data width comps bytes is_signed y st st' l h⟩
  · intro s0 s1 s2 u nc sink1 sink2 sink3 log0 hopen hwh hex hh hc
    exact encode_stream_first_line env raw_data p s0 s1 s2 u nc sink1 sink2 sink3 log0
      hopen hwh hex hh hc

/-- C14 at a concrete input: a 2x2 image of three components whose byte at offset i is i.
With a codec that asks for the components in the order 2, 1, 0, starting with the answer of
the initial exchange, the lines submitted are those of components 2, 1, 0 of row 0 and then
of row 1; with the cyclic codec they are those of components 0, 1, 2 of row 0 and then of
row 1. -/
theorem C14_feeding_order_witness :
    (∃ r log, ojph_encode (sequenceEnv reversedOrder) indexMemory 12 rgb8Params
        = some (r, log) ∧ r.error = none ∧
      exchanged_lines log = [[2, 5], [1, 4], [0, 3], [8, 11], [7, 10], [6, 9]]) ∧
    (∃ r log, ojph_encode (cyclicEnv (to_ui32 rgb8Params.components)) indexMemory 12 rgb8Params
        = some (r, log) ∧
      exchanged_lines log = [[0, 3], [1, 4], [2, 5], [6, 9], [7, 10], [8, 11]]) :=
  ⟨(C14_feeding_order quietEnv indexMemory 12 rgb8Params 2 3 1 true reversedOrder).2.2.2.2
      (by decide),
   (C14_feeding_order quietEnv indexMemory 12 rgb8Params 2 3 1 true reversedOrder).2.2.1
      (by decide)⟩

/-! ### C15 -/

/-- C15 (counterexample): a successful encode of a 1x1 image of one component makes two
exchange calls, the initial one without a buffer and one submission, not
height * components = 1. -/
theorem C15_initial_exchange_counterexample :
    0 < pixelParams.height ∧ 0 < pixelParams.components ∧
    pixelParams.height * pixelParams.components = 1 ∧
    (ojph_encode quietEnv (fun _ => 0) 1 pixelParams).map
        (fun o => (o.1, o.2.filter Ev.is_exchange)) =
      some ({ data := some [], size := 0, error := none },
        [.exchange none, .exchange (some [0])]) ∧
    ¬ ((ojph_encode quietEnv (fun _ => 0) 1 pixelParams).map
        (fun o => ((o.2.filter Ev.is_exchange).length : Int)) =
      some (pixelParams.height * pixelParams.components)) := by
  refine ⟨by decide, by decide, by decide, by rfl, by decide⟩

/-- C15 (amended): in every successful encode whose height and components are positive C
ints, the feeder makes exactly height * components + 1 exchange calls: the initial one,
which passes no buffer, and height * components line submissions. -/
theorem C15_exchange_count {σ : Type} (env : Env σ) (raw_data : Int → Byte) (raw_size : Nat)
    (p : ojph_encode_params) (r : ojph_encode_result) (log : List Ev)
    (h : ojph_encode env raw_data raw_size p = some (r, log)) (hd : r.data ≠ none)
    (hh : 0 < p.height) (hh31 : p.height < 2147483648)
    (hc : 0 < p.components) (hc31 : p.components < 2147483648) :
    ((log.filter Ev.is_exchange).length : Int) = p.height * p.components + 1 ∧
    ((exchanged_lines log).length : Int) = p.height * p.components := by
  obtain ⟨s0, -, hstream⟩ := encode_try_success env raw_data raw_size p r log h hd
  obtain ⟨h1, h2⟩ := encode_stream_count env raw_data p s0 _ r (by rw [hstream])
  rw [hstream] at h1 h2
  simp only [filter_exchange_config, exchanged_lines_config, List.length_nil, Nat.zero_add] at h1 h2
  have hH : ((to_ui32 p.height : Nat) : Int) = p.height := by unfold to_ui32; omega
  have hC : ((to_ui32 p.components : Nat) : Int) = p.components := by unfold to_ui32; omega
  rw [h1, h2]
  push_cast
  rw [hH, hC]
  constructor <;> ring

/-- C15 at a concrete input: the 1x1 one-component image with a codec that accepts every
call. -/
theorem C15_exchange_count_witness :
    ∃ r log, ojph_encode quietEnv (fun _ => 0) 1 pixelParams = some (r, log) ∧
      ((log.filter Ev.is_exchange).length : Int) =
        pixelParams.height * pixelParams.components + 1 ∧
      ((exchanged_lines log).length : Int) = pixelParams.height * pixelParams.components :=
  ⟨_, _, rfl, C15_exchange_count quietEnv (fun _ => 0) 1 pixelParams _ _ rfl (by decide)
    (by decide) (by decide) (by decide) (by decide)⟩

/-! ### The capacity-doubling loop -/

theorem grow_capacity_spec (need : Nat) (hneed : need ≤ 9223372036854775808) :
    ∀ (fuel cap k : Nat), 2 ^ k ≤ cap → 64 ≤ fuel + k → 1 ≤ fuel →
      ∃ j, grow_capacity fuel need cap = some (cap * 2 ^ j) ∧ need ≤ cap * 2 ^ j ∧
        ∀ i, i < j → cap * 2 ^ i < need := by
  intro fuel
  induction fuel with
  | zero => intro cap k _ _ h; omega
  | succ f ih =>
    intro cap k hk hf _
    unfold grow_capacity
    by_cases h : need > cap
    · rw [if_pos h]
      have hk63 : k < 63 := by
        by_contra hge
        have h1 : (2 : Nat) ^ 63 ≤ 2 ^ k := Nat.pow_le_pow_right (by norm_num) (by omega)
        have h2 : (2 : Nat) ^ 63 = 9223372036854775808 := by norm_num
        omega
      have hmod : cap * 2 % SIZE_MOD = cap * 2 := Nat.mod_eq_of_lt (by unfold SIZE_MOD; omega)
      have h2 : 2 ^ (k + 1) ≤ cap * 2 := by rw [pow_succ]; omega
      obtain ⟨j, hj, hle, hmin⟩ := ih (cap * 2) (k + 1) h2 (by omega) (by omega)
      have hpow : cap * 2 * 2 ^ j = cap * 2 ^ (j + 1) := by rw [pow_succ]; ring
      refine ⟨j + 1, ?_, ?_, ?_⟩
      · rw [hmod, hj, hpow]
      · rw [← hpow]; exact hle
      · intro i hi
        cases i with
        | zero => simpa using h
        | succ i =>
          have := hmin i (by omega)
          have hp : cap * 2 * 2 ^ i = cap * 2 ^ (i + 1) := by rw [pow_succ]; ring
          rw [← hp]; exact this
    · rw [if_neg h]
      exact ⟨0, by simp, by simpa using Nat.le_of_not_gt h, fun i hi => by omega⟩

theorem grow_capacity_fuel_succ (need : Nat) :
    ∀ (fuel cap c : Nat), grow_capacity fuel need cap = some c →
      grow_capacity (fuel + 1) need cap = some c := by
  intro fuel
  induction fuel with
  | zero => intro cap c h; simp [grow_capacity] at h
  | succ f ih =>
    intro cap c h
    unfold grow_capacity at h ⊢
    by_cases hn : need > cap
    · rw [if_pos hn] at h ⊢
      exact ih _ _ h
    · rw [if_neg hn] at h ⊢
      exact h

theorem grow_capacity_fuel_le (need cap c : Nat) (fuel fuel' : Nat) (hle : fuel ≤ fuel')
    (h : grow_capacity fuel need cap = some c) : grow_capacity fuel' need cap = some c := by
  induction hle with
  | refl => exact h
  | step _ ih => exact grow_capacity_fuel_succ need _ cap c ih

theorem grow_capacity_zero (need : Nat) (hneed : 0 < need) :
    ∀ fuel, grow_capacity fuel need 0 = none := by
  intro fuel
  induction fuel with
  | zero => rfl
  | succ f ih =>
    unfold grow_capacity
    rw [if_pos hneed]
    simpa using ih

/-- The loop of `write` for a capacity of at least 1 and a target of at most 2^63: it stops,
with the first of C, 2C, 4C, ... that is not below the target. -/
theorem grow_capacity_result (need cap : Nat) (hneed : need ≤ 9223372036854775808)
    (hcap : 1 ≤ cap) :
    ∃ j, (∀ fuel, GROW_FUEL ≤ fuel → grow_capacity fuel need cap = some (cap * 2 ^ j)) ∧
      need ≤ cap * 2 ^ j ∧ (∀ i, i < j → cap * 2 ^ i < need) := by
  obtain ⟨j, hj, hle, hmin⟩ := grow_capacity_spec need hneed GROW_FUEL cap 0 (by simpa using hcap)
    (by unfold GROW_FUEL; omega) (by unfold GROW_FUEL; omega)
  exact ⟨j, fun fuel hf => grow_capacity_fuel_le need cap _ GROW_FUEL fuel hf hj, hle, hmin⟩
theorem grow_capacity_none_of_step (need cap : Nat) (hgt : need > cap)
    (h : ∀ fuel, grow_capacity fuel need (cap * 2 % SIZE_MOD) = none) :
    ∀ fuel, grow_capacity fuel need cap = none := by
  intro fuel
  cases fuel with
  | zero => rfl
  | succ f =>
    unfold grow_capacity
    rw [if_pos hgt]
    exact h f

theorem grow_capacity_none_stable_aux (need : Nat) :
    ∀ (fuel k cap : Nat), 2 ^ k ∣ cap → (k = 64 → cap = 0) → k ≤ 64 → 65 ≤ fuel + k →
      grow_capacity fuel need cap = none → ∀ fuel', grow_capacity fuel' need cap = none := by
  intro fuel
  induction fuel with
  | zero => intro k cap _ _ hk hf; omega
  | succ f ih =>
    intro k cap hdvd h64 hk hf hnone
    unfold grow_capacity at hnone
    by_cases hgt : need > cap
    · rw [if_pos hgt] at hnone
      by_cases hk64 : k = 64
      · have hcap := h64 hk64
        subst hcap
        exact grow_capacity_zero need (by omega)
      · have hdvd' : 2 ^ (k + 1) ∣ cap * 2 % SIZE_MOD := by
          have h1 : 2 ^ (k + 1) ∣ SIZE_MOD := by
            have : SIZE_MOD = 2 ^ 64 := by norm_num [SIZE_MOD]
            rw [this]
            exact pow_dvd_pow 2 (by omega)
          rw [Nat.dvd_mod_iff h1, pow_succ]
          exact Nat.mul_dvd_mul_right hdvd 2
        have hzero : k + 1 = 64 → cap * 2 % SIZE_MOD = 0 := by
          intro hk1
          rw [hk1] at hdvd'
          have hlt : cap * 2 % SIZE_MOD < 2 ^ 64 := by
            have : SIZE_MOD = 2 ^ 64 := by norm_num [SIZE_MOD]
            rw [← this]
            exact Nat.mod_lt _ (by norm_num [SIZE_MOD])
          exact Nat.eq_zero_of_dvd_of_lt hdvd' hlt
        exact grow_capacity_none_of_step need cap hgt
          (ih (k + 1) _ hdvd' hzero (by omega) (by omega) hnone)
    · rw [if_neg hgt] at hnone
      simp at hnone

/-- The fuel of `write` is enough: when 65 evaluations of the loop condition do not end the
loop, no number of evaluations does. -/
theorem grow_capacity_none_stable (need cap : Nat)
    (h : grow_capacity GROW_FUEL need cap = none) :
    ∀ fuel, grow_capacity fuel need cap = none :=
  grow_capacity_none_stable_aux need GROW_FUEL 0 cap (by simp) (by omega) (by omega)
    (by unfold GROW_FUEL; omega) h

/-! ### One write -/

theorem write_spec (realloc_ok : Nat → Bool) (s : jni_mem_outfile) (bs block : List Byte)
    (hbuf : s.buf_ = some bs) (hcap : 1 ≤ s.capacity_)
    (hsz : s.size_ + block.length < 9223372036854775808) :
    ∃ j, s.size_ + block.length ≤ s.capacity_ * 2 ^ j ∧
      (∀ i, i < j → s.capacity_ * 2 ^ i < s.size_ + block.length) ∧
      (j = 0 ↔ s.size_ + block.length ≤ s.capacity_) ∧
      s.write realloc_ok block =
        if j = 0 ∨ realloc_ok (s.capacity_ * 2 ^ j) = true then
          .ret ({ buf_ := some (bs.take s.size_ ++ block), size_ := s.size_ + block.length,
                  capacity_ := s.capacity_ * 2 ^ j }, block.length)
        else .throws (.std "Failed to grow output buffer") := by
  have hmod : (s.size_ + block.length) % SIZE_MOD = s.size_ + block.length :=
    Nat.mod_eq_of_lt (by unfold SIZE_MOD; omega)
  obtain ⟨j, hj, hle, hmin⟩ := grow_capacity_result (s.size_ + block.length) s.capacity_
    (by omega) hcap
  have hj0 : j = 0 ↔ s.size_ + block.length ≤ s.capacity_ := by
    constructor
    · intro h; subst h; simpa using hle
    · intro h
      by_contra hne
      have := hmin 0 (by omega)
      simp at this
      omega
  refine ⟨j, hle, hmin, hj0, ?_⟩
  unfold jni_mem_outfile.write
  simp only [hmod]
  by_cases hgt : s.size_ + block.length > s.capacity_
  · have hjne : j ≠ 0 := fun h => by have := hj0.1 h; omega
    rw [if_pos hgt, hj GROW_FUEL (le_refl _)]
    simp only [hbuf, Option.getD_some, memcpy_at, hjne, false_or]
  · have hj' : j = 0 := hj0.2 (by omega)
    rw [if_neg hgt]
    subst hj'
    simp [hbuf, memcpy_at]

/-! ### Sequences of writes -/

/-- Writing blocks of total length below 2^63 to a sink that holds `content`, with
length <= capacity and capacity >= 1: whenever the writes return, the buffer holds the old
content followed by the blocks, in order. -/
theorem apply_writes_spec (realloc_ok : Nat → Bool) :
    ∀ (blocks : List (List Byte)) (s s' : jni_mem_outfile) (content : List Byte),
      s.buf_ = some content → s.size_ = content.length → 1 ≤ s.capacity_ →
      content.length + (blocks.map List.length).sum < 9223372036854775808 →
      apply_writes realloc_ok s blocks = .ret s' →
      s'.buf_ = some (content ++ blocks.flatten) ∧
      s'.size_ = content.length + (blocks.map List.length).sum ∧
      (s.size_ ≤ s.capacity_ → s'.size_ ≤ s'.capacity_) ∧
      ∃ j, s'.capacity_ = s.capacity_ * 2 ^ j := by
  intro blocks
  induction blocks with
  | nil =>
    intro s s' content hbuf hsize hcap _ h
    simp only [apply_writes, Outcome.ret.injEq] at h
    subst h
    exact ⟨by simp [hbuf], by simp [hsize], fun h => h, 0, by simp⟩
  | cons b bs ih =>
    intro s s' content hbuf hsize hcap htot h
    simp only [List.map_cons, List.sum_cons] at htot
    obtain ⟨j, hle, -, -, hw⟩ := write_spec realloc_ok s content b hbuf hcap (by omega)
    unfold apply_writes at h
    rw [hw] at h
    by_cases hr : j = 0 ∨ realloc_ok (s.capacity_ * 2 ^ j) = true
    · rw [if_pos hr] at h
      simp only at h
      have hpos : 1 ≤ s.capacity_ * 2 ^ j := Nat.mul_pos hcap (Nat.pow_pos (by norm_num))
      have htake : List.take s.size_ content = content := by
        rw [hsize]; exact List.take_length content
      obtain ⟨h1, h2, h3, k, hk⟩ := ih _ s' (content ++ b) (by simp [htake])
        (by simp [hsize]) hpos (by simp; omega) h
      refine ⟨by simp [h1], by simp [h2, List.length_append]; omega, ?_, j + k, ?_⟩
      · intro _
        exact h3 (by simpa using hle)
      · rw [hk]
        simp only
        rw [pow_add]; ring
    · rw [if_neg hr] at h
      simp at h
theorem open_ret (malloc_ok : Nat → Bool) (s0 : jni_mem_outfile)
    (h : jni_mem_outfile.ctor.open_ malloc_ok = .ret s0) : s0 = opened_sink := by
  unfold jni_mem_outfile.open_ at h
  split at h
  · simp only [Outcome.ret.injEq] at h
    rw [← h]; rfl
  · simp at h

theorem apply_writes_append (realloc_ok : Nat → Bool) (b : List Byte) :
    ∀ (xs : List (List Byte)) (s : jni_mem_outfile),
      apply_writes realloc_ok s (xs ++ [b]) =
        match apply_writes realloc_ok s xs with
        | .ret s1 =>
          (match s1.write realloc_ok b with
           | .ret (s2, _) => .ret s2
           | .throws e => .throws e
           | .diverges => .diverges)
        | .throws e => .throws e
        | .diverges => .diverges := by
  intro xs
  induction xs with
  | nil =>
    intro s
    simp only [List.nil_append, apply_writes]
  | cons x xs ih =>
    intro s
    simp only [List.cons_append, apply_writes]
    cases s.write realloc_ok x with
    | ret a => exact ih a.1
    | throws e => rfl
    | diverges => rfl

/-- With a `realloc` that never fails, writes of total length below 2^63 all return. -/
theorem apply_writes_returns (realloc_ok : Nat → Bool) (hr : ∀ n, realloc_ok n = true) :
    ∀ (blocks : List (List Byte)) (s : jni_mem_outfile) (content : List Byte),
      s.buf_ = some content → s.size_ = content.length → 1 ≤ s.capacity_ →
      content.length + (blocks.map List.length).sum < 9223372036854775808 →
      ∃ s', apply_writes realloc_ok s blocks = .ret s' := by
  intro blocks
  induction blocks with
  | nil => intro s content _ _ _ _; exact ⟨s, rfl⟩
  | cons b bs ih =>
    intro s content hbuf hsize hcap htot
    simp only [List.map_cons, List.sum_cons] at htot
    obtain ⟨j, -, -, -, hw⟩ := write_spec realloc_ok s content b hbuf hcap (by omega)
    rw [if_pos (Or.inr (hr _))] at hw
    unfold apply_writes
    rw [hw]
    simp only
    have htake : List.take s.size_ content = content := by
      rw [hsize]; exact List.take_length content
    exact ih _ (content ++ b) (by simp [htake]) (by simp [hsize])
      (Nat.mul_pos hcap (Nat.pow_pos (by norm_num))) (by simp; omega)

/-! ### C16 -/

/-- C16: in every state reached by the constructor, `open()` and writes of total length
below 2^63, length <= capacity holds and the capacity is 65536 times a power of two; a
further write that keeps the total below 2^63 again gives length <= capacity, and a
capacity that is the old one times a power of two (times 1 when unchanged), never smaller. -/
theorem C16_sink_invariant (malloc_ok realloc_ok : Nat → Bool) (blocks : List (List Byte))
    (s0 s : jni_mem_outfile)
    (hopen : jni_mem_outfile.ctor.open_ malloc_ok = .ret s0)
    (htot : (blocks.map List.length).sum < 9223372036854775808)
    (hw : apply_writes realloc_ok s0 blocks = .ret s) :
    s.size_ ≤ s.capacity_ ∧ (∃ j, s.capacity_ = 65536 * 2 ^ j) ∧
    ∀ (b : List Byte) (s' : jni_mem_outfile) (n : Nat),
      s.size_ + b.length < 9223372036854775808 → s.write realloc_ok b = .ret (s', n) →
      s'.size_ ≤ s'.capacity_ ∧ s.capacity_ ≤ s'.capacity_ ∧
      ∃ j, s'.capacity_ = s.capacity_ * 2 ^ j := by
  have h0 := open_ret malloc_ok s0 hopen
  subst h0
  obtain ⟨hbuf, hsize, hle, j, hj⟩ := apply_writes_spec realloc_ok blocks opened_sink s []
    rfl rfl (by decide) (by simpa using htot) hw
  have hle' : s.size_ ≤ s.capacity_ := hle (by decide)
  have hcap : s.capacity_ = 65536 * 2 ^ j := hj
  have hpos : 1 ≤ s.capacity_ := by
    rw [hcap]; exact Nat.mul_pos (by norm_num) (Nat.pow_pos (by norm_num))
  refine ⟨hle', ⟨j, hcap⟩, ?_⟩
  intro b s' n hb hwb
  obtain ⟨k, hk, -, -, hspec⟩ := write_spec realloc_ok s _ b hbuf hpos hb
  rw [hspec] at hwb
  split at hwb
  · simp only [Outcome.ret.injEq, Prod.mk.injEq] at hwb
    obtain ⟨hs', -⟩ := hwb
    subst hs'
    refine ⟨hk, ?_, k, rfl⟩
    exact Nat.le_mul_of_pos_right _ (Nat.pow_pos (by norm_num))
  · simp at hwb

/-- C16 at a concrete input: two blocks of 2 and 1 bytes written to a fresh sink. -/
theorem C16_sink_invariant_witness :
    apply_writes always_ok opened_sink [[1, 2], [3]] =
      .ret { buf_ := some [1, 2, 3], size_ := 3, capacity_ := 65536 } ∧
    (3 : Nat) ≤ 65536 ∧ (∃ j, (65536 : Nat) = 65536 * 2 ^ j) :=
  ⟨by rfl,
   (C16_sink_invariant always_ok always_ok [[1, 2], [3]] opened_sink
      { buf_ := some [1, 2, 3], size_ := 3, capacity_ := 65536 } (by rfl) (by decide)
      (by rfl)).1,
   (C16_sink_invariant always_ok always_ok [[1, 2], [3]] opened_sink
      { buf_ := some [1, 2, 3], size_ := 3, capacity_ := 65536 } (by rfl) (by decide)
      (by rfl)).2.1⟩

/-! ### C17 -/

/-- C17 (counterexample): a fresh sink (length 0, capacity 65536) and a write of 131072
bytes, which has to grow the buffer: the capacity after the write is 131072, equal to the
new length and not greater than it. -/
theorem C17_capacity_equals_length_counterexample :
    opened_sink.size_ + (List.replicate 131072 (0 : Byte)).length > opened_sink.capacity_ ∧
    ∃ s', opened_sink.write always_ok (List.replicate 131072 (0 : Byte)) = .ret (s', 131072) ∧
      s'.size_ = 131072 ∧ s'.capacity_ = 131072 ∧ ¬ (s'.capacity_ > s'.size_) := by
  have hlen : (List.replicate 131072 (0 : Byte)).length = 131072 := List.length_replicate _ _
  refine ⟨by rw [hlen]; decide, ?_⟩
  obtain ⟨j, hle, hmin, hj0, hw⟩ := write_spec always_ok opened_sink [] (List.replicate 131072 0)
    rfl (by decide) (by rw [hlen]; decide)
  rw [hlen] at hle hmin hj0 hw
  have hsz : opened_sink.size_ = 0 := rfl
  have hcp : opened_sink.capacity_ = 65536 := rfl
  rw [hsz, hcp] at hle hmin hj0
  have hj1 : j = 1 := by
    have hne : j ≠ 0 := fun h => by have := hj0.1 h; omega
    by_contra h
    have := hmin 1 (by omega)
    omega
  subst hj1
  have hc : 1 = 0 ∨ always_ok (opened_sink.capacity_ * 2 ^ 1) = true := Or.inr rfl
  rw [if_pos hc] at hw
  exact ⟨_, hw, rfl, rfl, by decide⟩

/-- C17 (amended): for a sink reached by `open()` and writes, with length L and capacity C,
and a write of n bytes with L + n > C and L + n < 2^63, the capacity after the write is
C * 2^j for the first j >= 1 with L + n <= C * 2^j: it is at least the new length, and every
earlier value of 2C, 4C, ... is below L + n. The write returns n when `realloc` succeeds and
throws otherwise. -/
theorem C17_growth_by_doubling (malloc_ok realloc_ok : Nat → Bool)
    (blocks : List (List Byte)) (s0 s : jni_mem_outfile) (b : List Byte)
    (hopen : jni_mem_outfile.ctor.open_ malloc_ok = .ret s0)
    (hw : apply_writes realloc_ok s0 blocks = .ret s)
    (htot : (blocks.map List.length).sum + b.length < 9223372036854775808)
    (hgrow : s.size_ + b.length > s.capacity_) :
    ∃ j, 1 ≤ j ∧ s.size_ + b.length ≤ s.capacity_ * 2 ^ j ∧
      (∀ i, 1 ≤ i → i < j → s.capacity_ * 2 ^ i < s.size_ + b.length) ∧
      s.write realloc_ok b =
        if realloc_ok (s.capacity_ * 2 ^ j) = true then
          .ret ({ buf_ := some (blocks.flatten ++ b), size_ := s.size_ + b.length,
                  capacity_ := s.capacity_ * 2 ^ j }, b.length)
        else .throws (.std "Failed to grow output buffer") := by
  have h0 := open_ret malloc_ok s0 hopen
  subst h0
  obtain ⟨hbuf, hsize, -, k, hk⟩ := apply_writes_spec realloc_ok blocks opened_sink s []
    rfl rfl (by decide) (by simp; omega) hw
  simp only [List.nil_append, List.length_nil, Nat.zero_add] at hbuf hsize
  have hpos : 1 ≤ s.capacity_ := by
    rw [hk]; exact Nat.mul_pos (by decide) (Nat.pow_pos (by norm_num))
  obtain ⟨j, hle, hmin, hj0, hspec⟩ := write_spec realloc_ok s _ b hbuf hpos (by omega)
  have hne : j ≠ 0 := fun h => by have := hj0.1 h; omega
  refine ⟨j, by omega, hle, fun i _ hi => hmin i hi, ?_⟩
  rw [hspec]
  have htake : List.take s.size_ blocks.flatten = blocks.flatten := by
    rw [hsize, ← List.length_flatten]; exact List.take_length _
  simp only [hne, false_or, htake]

/-- C17 at a concrete input: a fresh sink and a write of 65537 bytes; the capacity becomes
131072. -/
theorem C17_growth_by_doubling_witness :
    ∃ j, 1 ≤ j ∧ opened_sink.size_ + (List.replicate 65537 (0 : Byte)).length
        ≤ opened_sink.capacity_ * 2 ^ j ∧
      (∀ i, 1 ≤ i → i < j → opened_sink.capacity_ * 2 ^ i
        < opened_sink.size_ + (List.replicate 65537 (0 : Byte)).length) ∧
      opened_sink.write always_ok (List.replicate 65537 (0 : Byte)) =
        if always_ok (opened_sink.capacity_ * 2 ^ j) = true then
          .ret ({ buf_ := some (([] : List (List Byte)).flatten ++ List.replicate 65537 0),
                  size_ := opened_sink.size_ + (List.replicate 65537 (0 : Byte)).length,
                  capacity_ := opened_sink.capacity_ * 2 ^ j },
                (List.replicate 65537 (0 : Byte)).length)
        else .throws (.std "Failed to grow output buffer") :=
  C17_growth_by_doubling always_ok always_ok [] opened_sink opened_sink
    (List.replicate 65537 0) (by rfl) (by rfl)
    (by rw [List.length_replicate]; decide) (by rw [List.length_replicate]; decide)

/-! ### C18 -/

theorem tell_of_small (s : jni_mem_outfile) (h : s.size_ < 9223372036854775808) :
    s.tell = (s.size_ : Int) := by
  unfold jni_mem_outfile.tell
  omega

theorem sum_take_le (l : List Nat) (i : Nat) : (l.take i).sum ≤ l.sum := by
  induction l generalizing i with
  | nil => simp
  | cons a l ih =>
    cases i with
    | zero => simp
    | succ i => simp only [List.take_succ_cons, List.sum_cons]; have := ih i; omega

theorem apply_writes_split (realloc_ok : Nat → Bool) (ys : List (List Byte)) :
    ∀ (xs : List (List Byte)) (s s' : jni_mem_outfile),
      apply_writes realloc_ok s (xs ++ ys) = .ret s' →
      ∃ s1, apply_writes realloc_ok s xs = .ret s1 ∧ apply_writes realloc_ok s1 ys = .ret s' := by
  intro xs
  induction xs with
  | nil => intro s s' h; exact ⟨s, rfl, h⟩
  | cons x xs ih =>
    intro s s' h
    simp only [List.cons_append, apply_writes] at h ⊢
    cases hw : s.write realloc_ok x with
    | ret a =>
      rw [hw] at h
      exact ih a.1 s' h
    | throws e => rw [hw] at h; simp at h
    | diverges => rw [hw] at h; simp at h

/-- C18: `open()`, when it returns, yields an empty buffer of length 0 and capacity 65536.
Blocks of total length below 2^63 are all written when `realloc` does not fail, and whenever
they are written, after the first i writes the first `size_` bytes of the buffer are exactly
the concatenation of the first i blocks, `tell()` is the sum of their lengths, a non-negative
value, and the next write returns the length of its block. -/
theorem C18_sink_content (malloc_ok realloc_ok : Nat → Bool) (blocks : List (List Byte))
    (s0 : jni_mem_outfile)
    (hopen : jni_mem_outfile.ctor.open_ malloc_ok = .ret s0)
    (htot : (blocks.map List.length).sum < 9223372036854775808) :
    (s0.buf_ = some [] ∧ s0.size_ = 0 ∧ s0.capacity_ = 65536) ∧
    ((∀ n, realloc_ok n = true) → ∃ s, apply_writes realloc_ok s0 blocks = .ret s) ∧
    ∀ s, apply_writes realloc_ok s0 blocks = .ret s →
      ∀ i, i ≤ blocks.length →
        ∃ si, apply_writes realloc_ok s0 (blocks.take i) = .ret si ∧
          si.buf_ = some (blocks.take i).flatten ∧
          ((blocks.take i).flatten).take si.size_ = (blocks.take i).flatten ∧
          si.size_ = ((blocks.take i).map List.length).sum ∧
          si.tell = ((((blocks.take i).map List.length).sum : Nat) : Int) ∧ 0 ≤ si.tell ∧
          ∀ h : i < blocks.length,
            ∃ s', si.write realloc_ok (blocks.get ⟨i, h⟩) =
                .ret (s', (blocks.get ⟨i, h⟩).length) ∧
              apply_writes realloc_ok s0 (blocks.take (i + 1)) = .ret s' := by
  have h0 := open_ret malloc_ok s0 hopen
  subst h0
  refine ⟨⟨rfl, rfl, rfl⟩, ?_, ?_⟩
  · intro hr
    exact apply_writes_returns realloc_ok hr blocks opened_sink [] rfl rfl (by decide)
      (by simpa using htot)
  intro sfin hfin i hi
  have hsum : ∀ k, ((blocks.take k).map List.length).sum < 9223372036854775808 := by
    intro k
    have := sum_take_le (blocks.map List.length) k
    rw [← List.map_take] at this
    omega
  have hpre : ∀ k, ∃ sk, apply_writes realloc_ok opened_sink (blocks.take k) = .ret sk := by
    intro k
    have hsplit : blocks = blocks.take k ++ blocks.drop k := (List.take_append_drop k blocks).symm
    rw [hsplit] at hfin
    obtain ⟨sk, hk, -⟩ := apply_writes_split realloc_ok _ _ _ _ hfin
    exact ⟨sk, hk⟩
  obtain ⟨s, hs⟩ := hpre i
  obtain ⟨hbuf, hsize, -, j, hj⟩ := apply_writes_spec realloc_ok (blocks.take i) opened_sink s []
    rfl rfl (by decide) (by simpa using hsum i) hs
  simp only [List.nil_append, List.length_nil, Nat.zero_add] at hbuf hsize
  have htell : s.tell = (s.size_ : Int) := tell_of_small s (by rw [hsize]; exact hsum i)
  refine ⟨s, hs, hbuf, ?_, hsize, by rw [htell, hsize], by rw [htell]; omega, ?_⟩
  · rw [hsize, ← List.length_flatten]; exact List.take_length _
  · intro h
    have htake : blocks.take (i + 1) = blocks.take i ++ [blocks.get ⟨i, h⟩] := by
      rw [List.take_succ]
      simp [List.getElem?_eq_getElem h]
    obtain ⟨s', hs'⟩ := hpre (i + 1)
    refine ⟨s', ?_, hs'⟩
    have hpos : 1 ≤ s.capacity_ := by
      rw [hj]; exact Nat.mul_pos (by decide) (Nat.pow_pos (by norm_num))
    have hb : s.size_ + (blocks.get ⟨i, h⟩).length < 9223372036854775808 := by
      have := hsum (i + 1)
      rw [htake] at this
      simp only [List.map_append, List.sum_append, List.map_cons, List.map_nil, List.sum_cons,
        List.sum_nil] at this
      omega
    obtain ⟨k, -, -, -, hw⟩ := write_spec realloc_ok s _ (blocks.get ⟨i, h⟩) hbuf hpos hb
    rw [htake, apply_writes_append, hs] at hs'
    simp only [hw] at hs'
    rw [hw]
    by_cases hc : k = 0 ∨ realloc_ok (s.capacity_ * 2 ^ k) = true
    · rw [if_pos hc] at hs' ⊢
      simp only [Outcome.ret.injEq] at hs'
      rw [hs']
    · rw [if_neg hc] at hs'
      simp at hs'

/-- C18 at a concrete input: after the block [1, 2] the buffer holds [1, 2], `tell()` is 2, and
the write of [3] returns 1. -/
theorem C18_sink_content_witness :
    apply_writes always_ok opened_sink [[1, 2], [3]] =
      .ret { buf_ := some [1, 2, 3], size_ := 3, capacity_ := 65536 } ∧
    ∃ si, apply_writes always_ok opened_sink ([[1, 2], [3]].take 1) = .ret si ∧
      si.buf_ = some ([[1, 2], [3]].take 1).flatten ∧
      ((([[1, 2], [3]] : List (List Byte)).take 1).flatten).take si.size_ =
        ([[1, 2], [3]].take 1).flatten ∧
      si.size_ = (([[1, 2], [3]].take 1).map List.length).sum ∧
      si.tell = (((([[1, 2], [3]] : List (List Byte)).take 1).map List.length).sum : Nat) ∧
      0 ≤ si.tell ∧
      ∀ h : 1 < ([[1, 2], [3]] : List (List Byte)).length,
        ∃ s', si.write always_ok (([[1, 2], [3]] : List (List Byte)).get ⟨1, h⟩) =
            .ret (s', ((([[1, 2], [3]] : List (List Byte)).get ⟨1, h⟩)).length) ∧
          apply_writes always_ok opened_sink ([[1, 2], [3]].take (1 + 1)) = .ret s' :=
  ⟨by rfl,
   (C18_sink_content always_ok always_ok [[1, 2], [3]] opened_sink (by rfl) (by decide)).2.2
     { buf_ := some [1, 2, 3], size_ := 3, capacity_ := 65536 } (by rfl) 1 (by decide)⟩

/-! ### C19 -/

/-- C19: `release()` returns the storage and the used length, not the capacity, and leaves
null storage, length 0 and capacity 0; a second `release()` returns null storage and length
0, and the destructor of a released sink frees nothing. -/
theorem C19_release (s : jni_mem_outfile) :
    s.release.1 = s.buf_ ∧ s.release.2.1 = s.size_ ∧
    s.release.2.2 = { buf_ := none, size_ := 0, capacity_ := 0 } ∧
    s.release.2.2.release.1 = none ∧ s.release.2.2.release.2.1 = 0 ∧
    s.release.2.2.release.2.2 = { buf_ := none, size_ := 0, capacity_ := 0 } ∧
    s.release.2.2.dtor = none :=
  ⟨rfl, rfl, rfl, rfl, rfl, rfl, rfl⟩

/-! ### C20 -/

/-- C20: for a capacity of at least 1 and length + n < 2^63 the doubling loop stops, with a
result that no longer depends on the fuel once 65 evaluations of the condition are paid for,
and `write` does not diverge; for capacity 0 and a non-zero target the loop never stops,
whatever the fuel, and a non-empty write to a sink that was never opened, or was released,
never returns. -/
theorem C20_growth_terminates (realloc_ok : Nat → Bool) (s : jni_mem_outfile)
    (block : List Byte) :
    (1 ≤ s.capacity_ → s.size_ + block.length < 9223372036854775808 →
      (∃ cap, ∀ fuel, 65 ≤ fuel →
        grow_capacity fuel ((s.size_ + block.length) % SIZE_MOD) s.capacity_ = some cap) ∧
      s.write realloc_ok block ≠ .diverges) ∧
    (∀ need fuel, 0 < need → grow_capacity fuel need 0 = none) ∧
    (0 < block.length → block.length < 18446744073709551616 →
      jni_mem_outfile.ctor.write realloc_ok block = .diverges ∧
      s.release.2.2.write realloc_ok block = .diverges) := by
  refine ⟨?_, fun need fuel h => grow_capacity_zero need h fuel, ?_⟩
  · intro hcap hsz
    have hmod : (s.size_ + block.length) % SIZE_MOD = s.size_ + block.length :=
      Nat.mod_eq_of_lt (by unfold SIZE_MOD; omega)
    obtain ⟨j, hj, -, -⟩ := grow_capacity_result (s.size_ + block.length) s.capacity_
      (by omega) hcap
    refine ⟨⟨s.capacity_ * 2 ^ j, fun fuel hf => by rw [hmod]; exact hj fuel hf⟩, ?_⟩
    unfold jni_mem_outfile.write
    simp only [hmod]
    split
    · rw [hj GROW_FUEL (le_refl _)]
      simp only
      split <;> simp
    · simp
  · intro hpos hlt
    have hmod : (0 + block.length) % SIZE_MOD = block.length := by
      rw [Nat.zero_add]; exact Nat.mod_eq_of_lt hlt
    have hw : jni_mem_outfile.ctor.write realloc_ok block = .diverges := by
      unfold jni_mem_outfile.write jni_mem_outfile.ctor
      simp only [hmod]
      rw [if_pos hpos, grow_capacity_zero block.length hpos]
    exact ⟨hw, hw⟩

/-- C20 at concrete inputs that enter the loop: a write of 65537 bytes to the fresh sink needs
more than the capacity 65536 and the loop stops after one doubling, at 131072; a write of
three bytes to a sink of capacity 1 and length 2^63 - 4 makes the loop double 63 times, up to
2^63. In both cases the result does not depend on the fuel and `write` does not diverge. -/
theorem C20_growth_terminates_witness :
    ¬ (opened_sink.size_ + (List.replicate 65537 (0 : Byte)).length ≤ opened_sink.capacity_) ∧
    grow_capacity GROW_FUEL 65537 65536 = some 131072 ∧
    ¬ (deepSink.size_ + ([1, 2, 3] : List Byte).length ≤ deepSink.capacity_) ∧
    grow_capacity GROW_FUEL 9223372036854775807 1 = some 9223372036854775808 ∧
    ((∃ cap, ∀ fuel, 65 ≤ fuel →
        grow_capacity fuel
          ((opened_sink.size_ + (List.replicate 65537 (0 : Byte)).length) % SIZE_MOD)
          opened_sink.capacity_ = some cap) ∧
      opened_sink.write always_ok (List.replicate 65537 (0 : Byte)) ≠ .diverges) ∧
    ((∃ cap, ∀ fuel, 65 ≤ fuel →
        grow_capacity fuel ((deepSink.size_ + ([1, 2, 3] : List Byte).length) % SIZE_MOD)
          deepSink.capacity_ = some cap) ∧
      deepSink.write always_ok [1, 2, 3] ≠ .diverges) :=
  ⟨by rw [List.length_replicate]; decide, by decide, by decide, by decide,
   (C20_growth_terminates always_ok opened_sink (List.replicate 65537 0)).1 (by decide)
     (by rw [List.length_replicate]; decide),
   (C20_growth_terminates always_ok deepSink [1, 2, 3]).1 (by decide) (by decide)⟩

end OpenJPH
